import Mathlib

set_option linter.unusedVariables false

/-!
Shallow embedding of the board state machine of the draughts/checkers
rules engine (sources: `src/draughts/base.py` and `src/checkers/base.py`).
Positions are buffers of signed integers, moves are records of traversed
and captured squares, and the push/pop protocol, the promotion rule, the
threefold-repetition test and the FEN codec are translated function by
function from the Python source.
-/

/-- Modelled from the spec: `draughts/models.py` is not under `src/`.
The spec (section 3) fixes the piece encoding: empty = 0, sign = color,
magnitude = kind, with a fixed promotion multiplier K = 3 in the
reference encoding.  The sign assignment is fixed by the source itself:
the starting position of `draughts/base.py` places the `-1` men on the
bottom rows, the promotion test of `push` promotes a `WHITE_MAN` that
reaches row 0 (the top), and the `fen` encoder lists the negative values
under the `W` segment, so `Color.WHITE = -1` and `Color.BLACK = 1`. -/
inductive Color where
  | White : Color
  | Black : Color
deriving DecidableEq, Repr

/-- Integer value of a color, as used by `__populate_from_list`. -/
def Color.val : Color → Int
  | .White => -1
  | .Black => 1

/-- Turn switch of `push`/`pop`: `Color.WHITE if self.turn == Color.BLACK else Color.BLACK`. -/
def Color.opposite : Color → Color
  | .White => .Black
  | .Black => .White

/-- Modelled from the spec: `Figure.EMPTY.value` (0). -/
def figEMPTY : Int := 0

/-- Modelled from the spec: `Figure.KING.value`, the promotion multiplier K = 3. -/
def figKING : Int := 3

/-- Modelled from the spec: `Figure.WHITE_MAN.value` (sign of white is negative, see `Color`). -/
def figWHITE_MAN : Int := -1

/-- Modelled from the spec: `Figure.BLACK_MAN.value`. -/
def figBLACK_MAN : Int := 1

/-- Modelled from the spec: `Figure.WHITE_KING.value = WHITE_MAN * KING`. -/
def figWHITE_KING : Int := -3

/-- Modelled from the spec: `Figure.BLACK_KING.value = BLACK_MAN * KING`. -/
def figBLACK_KING : Int := 3

/-- Modelled from the spec: the `Move` record of `draughts/move.py`
(not under `src/`): an ordered list of traversed squares, the captured
squares, the pre-capture piece values of those squares, and the
`is_promotion` flag set by the execution engine. -/
structure Move where
  square_list : List Nat
  captured_list : List Nat
  captured_entities : List Int
  is_promotion : Bool
deriving DecidableEq, Repr

instance : Inhabited Move := ⟨⟨[], [], [], false⟩⟩

/-- The `BaseBoard` state of `draughts/base.py` (also serves
`checkers/base.py`, whose state is identical): the position buffer
`_pos`, the side to move `turn`, the move stack `_moves_stack` and the
board size `shape` (first component of the `(n, n)` pair). -/
structure Board where
  pos : List Int
  turn : Color
  moves_stack : List Move
  shape : Nat
deriving DecidableEq, Repr

/-- Floor square root by bounded downward search: the largest `j ≤ k`
with `j * j ≤ n` (used to model `int(np.sqrt(x))`, which floors). -/
def isqrtAux : Nat → Nat → Nat
  | 0, _ => 0
  | k + 1, n => if (k + 1) * (k + 1) ≤ n then k + 1 else isqrtAux k n

/-- Floor square root, `int(np.sqrt(n))`. -/
def isqrt (n : Nat) : Nat := isqrtAux n n

/-- `BaseBoard.__init__` (`draughts/base.py` lines 92-111 and
`checkers/base.py` lines 48-67): copies the starting position, sets the
turn, computes `size = int(sqrt(len * 2))` and raises `ValueError`
(modelled as `none`) unless `size**2 == len * 2`. -/
def boardInit (starting_position : List Int) (starting_color : Color) : Option Board :=
  let size := isqrt (starting_position.length * 2)
  if size * size = starting_position.length * 2 then
    some { pos := starting_position, turn := starting_color, moves_stack := [], shape := size }
  else
    none

/-- The simultaneous swap `self._pos[src], self._pos[tg] = self._pos[tg], self._pos[src]`. -/
def listSwap (pos : List Int) (src tg : Nat) : List Int :=
  let a := pos.getD src 0
  let b := pos.getD tg 0
  (pos.set src b).set tg a

/-- The promotion step of `BaseBoard.push` (`draughts/base.py` lines
169-177), applied to the position after the origin/destination swap:
if the destination `tg` holds a white man and lies in row 0 of the
expanded grid (`tg // (shape // 2) == 0`), or holds a black man and lies
in row `shape - 1`, the cell is multiplied by `Figure.KING.value` and
`move.is_promotion` is set to `True`. -/
def promoStep (shape : Nat) (pos : List Int) (tg : Nat) (move : Move) : List Int × Move :=
  if (tg / (shape / 2) = 0 ∧ pos.getD tg 0 = figWHITE_MAN)
      ∨ (tg / (shape / 2) = shape - 1 ∧ pos.getD tg 0 = figBLACK_MAN) then
    (pos.set tg (pos.getD tg 0 * figKING), { move with is_promotion := true })
  else
    (pos, move)

/-- `self._pos[np.array([sq for sq in move.captured_list])] = Figure.EMPTY`. -/
def clearCaptured (pos : List Int) (captured : List Nat) : List Int :=
  captured.foldl (fun p sq => p.set sq figEMPTY) pos

/-- `for sq, entity in zip(move.captured_list, move.captured_entities): self._pos[sq] = entity`. -/
def restoreCaptured (pos : List Int) (captured : List Nat) (entities : List Int) : List Int :=
  (captured.zip entities).foldl (fun p se => p.set se.1 se.2) pos

/-- `BaseBoard.push` of `draughts/base.py` (lines 154-182): swap origin
and destination, apply the promotion rule, clear the captured squares,
append the move to the stack, and switch the turn when `is_finished`. -/
def push (b : Board) (move : Move) (is_finished : Bool) : Board :=
  let src := move.square_list.headD 0
  let tg := move.square_list.getLastD 0
  let pos1 := listSwap b.pos src tg
  let pm := promoStep b.shape pos1 tg move
  let pos3 := if move.captured_list = [] then pm.1 else clearCaptured pm.1 move.captured_list
  { b with
    pos := pos3
    moves_stack := b.moves_stack ++ [pm.2]
    turn := if is_finished then b.turn.opposite else b.turn }

/-- `BaseBoard.pop` of `draughts/base.py` (lines 184-202): pop the most
recent move (raising on an empty stack, modelled as `none`), undo the
promotion by floor-dividing the destination by `Figure.KING.value`
(Python `//=`), swap back, restore the captured entities, and switch the
turn when `is_finished`.  Returns the popped move. -/
def pop (b : Board) (is_finished : Bool) : Option (Board × Move) :=
  match b.moves_stack.getLast? with
  | none => none
  | some move =>
    let src := move.square_list.headD 0
    let tg := move.square_list.getLastD 0
    let pos1 := if move.is_promotion then b.pos.set tg ((b.pos.getD tg 0).fdiv figKING) else b.pos
    let pos2 := listSwap pos1 src tg
    let pos3 := restoreCaptured pos2 move.captured_list move.captured_entities
    some ({ b with
            pos := pos3
            moves_stack := b.moves_stack.dropLast
            turn := if is_finished then b.turn.opposite else b.turn }, move)

/-- `BaseBoard.push` of `checkers/base.py` (lines 79-97): identical to
the draughts push except that it has no promotion step. -/
def checkersPush (b : Board) (move : Move) (is_finished : Bool) : Board :=
  let src := move.square_list.headD 0
  let tg := move.square_list.getLastD 0
  let pos1 := listSwap b.pos src tg
  let pos2 := if move.captured_list = [] then pos1 else clearCaptured pos1 move.captured_list
  { b with
    pos := pos2
    moves_stack := b.moves_stack ++ [move]
    turn := if is_finished then b.turn.opposite else b.turn }

/-- `BaseBoard.is_threefold_repetition` (`draughts/base.py` lines
132-141): true iff the stack has at least 9 entries and the
`square_list` of `self._moves_stack[-1]`, `[-5]` and `[-9]` coincide. -/
def is_threefold_repetition (b : Board) : Bool :=
  if 9 ≤ b.moves_stack.length then
    let s := b.moves_stack
    let n := s.length
    ((s.getD (n - 1) default).square_list == (s.getD (n - 5) default).square_list)
      && ((s.getD (n - 5) default).square_list == (s.getD (n - 9) default).square_list)
  else
    false

/-- ASCII digit character for a value below ten (decimal printing of `str`). -/
def digitChar (d : Nat) : Char := Char.ofNat (48 + d)

/-- One-character digit test (`str.isdigit`, ASCII case). -/
def isDigitChar (c : Char) : Bool := '0' ≤ c && c ≤ '9'

/-- Numeric value of a digit character. -/
def digitVal (c : Char) : Nat := c.toNat - 48

/-- Python `int` on a digit string. -/
def parseNat (l : List Char) : Nat := l.foldl (fun a c => a * 10 + digitVal c) 0

/-- Python `str.isdigit`: nonempty and all digits. -/
def isdigitL (l : List Char) : Bool := !l.isEmpty && l.all isDigitChar

/-- Decimal digits of a natural number, most significant first.  The
fuel argument only bounds the recursion depth; `fuel = n + 1` always
suffices. -/
def natDigitsAux : Nat → Nat → List Char
  | 0, _ => []
  | fuel + 1, n =>
    if n < 10 then [digitChar n] else natDigitsAux fuel (n / 10) ++ [digitChar (n % 10)]

/-- Python `str(n)` for a natural number. -/
def natDigits (n : Nat) : List Char := natDigitsAux (n + 1) n

/-- `COLORS_REPR = {Color.WHITE: "W", Color.BLACK: "B"}`. -/
def colorRepr : Color → Char
  | .White => 'W'
  | .Black => 'B'

/-- `np.where(self.position < 0)[0]`: ascending indices of negative cells. -/
def whereNeg (pos : List Int) : List Nat :=
  (List.range pos.length).filter (fun i => pos.getD i 0 < 0)

/-- `np.where(self.position > 0)[0]`: ascending indices of positive cells. -/
def wherePos (pos : List Int) : List Nat :=
  (List.range pos.length).filter (fun i => 0 < pos.getD i 0)

/-- One item of the `W` list of `fen`: `"K" * bool(self._pos[sq] < -1) + str(sq + 1)`. -/
def fenItemNeg (pos : List Int) (sq : Nat) : List Char :=
  (if pos.getD sq 0 < -1 then ['K'] else []) ++ natDigits (sq + 1)

/-- One item of the `B` list of `fen`: `"K" * bool(self._pos[sq] > 1) + str(sq + 1)`. -/
def fenItemPos (pos : List Int) (sq : Nat) : List Char :=
  (if 1 < pos.getD sq 0 then ['K'] else []) ++ natDigits (sq + 1)

/-- Python `",".join`. -/
def joinComma : List (List Char) → List Char
  | [] => []
  | e :: es =>
    match es with
    | [] => e
    | _ :: _ => e ++ ',' :: joinComma es

/-- `BaseBoard.fen` (`draughts/base.py` lines 218-244) as a character
list: the literal `[FEN "W:`, the turn marker, `:W`, the comma-joined
negative-cell items, `:B`, the comma-joined positive-cell items, and
the closing `"]`. -/
def fen (b : Board) : List Char :=
  ['[', 'F', 'E', 'N', ' ', '"', 'W', ':']
    ++ colorRepr b.turn :: ':' :: 'W' :: joinComma ((whereNeg b.pos).map (fenItemNeg b.pos))
    ++ ':' :: 'B' :: joinComma ((wherePos b.pos).map (fenItemPos b.pos))
    ++ ['"', ']']

/-- Python `str.split` on a single separator character. -/
def splitOnChar (sep : Char) : List Char → List (List Char)
  | [] => [[]]
  | c :: rest =>
    if c = sep then [] :: splitOnChar sep rest
    else
      match splitOnChar sep rest with
      | [] => [[c]]
      | g :: gs => (c :: g) :: gs

/-- The payload of the fen string, between `[FEN "` and `"]`. -/
def fenInner (b : Board) : List Char := (((fen b).drop 6).dropLast).dropLast

/-- The colon-separated fields of the fen payload. -/
def fenFields (b : Board) : List (List Char) := splitOnChar ':' (fenInner b)

/-- Character class `[WB]` of the `from_fen` regexes. -/
def isWB (c : Char) : Bool := c = 'W' || c = 'B'

/-- Character class `[0-9K,]` of the `re_white`/`re_black` regexes. -/
def isSquareClass (c : Char) : Bool := isDigitChar c || c = 'K' || c = ','

/-- Head-is-digit test used by the premove scanner. -/
def headIsDigit : List Char → Bool
  | [] => false
  | c :: _ => isDigitChar c

/-- Drop one leading comma if present (the `(,|)` group of `re_premove`). -/
def dropOptComma : List Char → List Char
  | ',' :: rest => rest
  | l => l

/-- `re.compile(r"(G[0-9]+|P[0-9]+)(,|)").sub("", fen)`: left-to-right,
non-overlapping removal of every premove marker.  The fuel argument
bounds the number of steps (each step consumes at least one input
character), so `fuel = length` always suffices. -/
def stripPremovesAux : Nat → List Char → List Char
  | 0, l => l
  | _ + 1, [] => []
  | fuel + 1, c :: rest =>
    if (c = 'G' || c = 'P') && headIsDigit rest then
      stripPremovesAux fuel (dropOptComma (rest.dropWhile isDigitChar))
    else
      c :: stripPremovesAux fuel rest

/-- The premove-substitution pass of `from_fen`. -/
def stripPremoves (l : List Char) : List Char := stripPremovesAux l.length l

/-- Window test for `[WB]:[WB]:[WB]` at the head of the list (a default
character that matches no class stands in for a missing position, so a
list shorter than five characters never matches). -/
def matchTriple (l : List Char) : Bool :=
  isWB (l.getD 0 ' ') && (l.getD 1 ' ' = ':') && isWB (l.getD 2 ' ')
    && (l.getD 3 ' ' = ':') && isWB (l.getD 4 ' ')

/-- `re.compile(r"[WB]:[WB]:[WB]").search(fen)`: the first five-character
window matching the duplicated color-marker artifact. -/
def findTriple : List Char → Option (List Char)
  | [] => none
  | c :: rest => if matchTriple (c :: rest) then some ((c :: rest).take 5) else findTriple rest

/-- Literal leading-pattern test (list version of `str.startswith`). -/
def startsWithL : List Char → List Char → Bool
  | [], _ => true
  | _ :: _, [] => false
  | p :: ps, c :: cs => p = c && startsWithL ps cs

/-- Python `str.replace(pat, repl)`: leftmost-first, non-overlapping.
The fuel bounds the number of steps; `fuel = length` suffices for a
nonempty pattern. -/
def replaceAllAux : Nat → List Char → List Char → List Char → List Char
  | 0, s, _, _ => s
  | _ + 1, [], _, _ => []
  | fuel + 1, c :: rest, pat, repl =>
    if startsWithL pat (c :: rest) then
      repl ++ replaceAllAux fuel ((c :: rest).drop pat.length) pat repl
    else
      c :: replaceAllAux fuel rest pat repl

/-- `fen.replace(prefix, prefix[2:])`. -/
def replaceAll (s pat repl : List Char) : List Char :=
  if pat.isEmpty then s else replaceAllAux s.length s pat repl

/-- Window test for `[WB]:` at the head of the list. -/
def matchTurn (l : List Char) : Bool :=
  isWB (l.getD 0 ' ') && (l.getD 1 ' ' = ':')

/-- `re.compile(r"[WB]:").search(fen).group(0)[0]`. -/
def findTurn : List Char → Option Char
  | [] => none
  | c :: rest => if matchTurn (c :: rest) then some c else findTurn rest

/-- Window test for a color marker followed by one `[0-9K,]` character. -/
def matchColor (marker : Char) (l : List Char) : Bool :=
  (l.getD 0 ' ' = marker) && isSquareClass (l.getD 1 ' ')

/-- `re.compile(r"W[0-9K,]+").search(fen).group(0).replace("W", "")`
(resp. for `B`): the first marker followed by at least one `[0-9K,]`
character, extended greedily, with every marker character removed. -/
def findColorList (marker : Char) : List Char → Option (List Char)
  | [] => none
  | c :: rest =>
    if matchColor marker (c :: rest) then
      some ((c :: rest.takeWhile isSquareClass).filter (fun x => x ≠ marker))
    else
      findColorList marker rest

/-- The class-level mutable state of `BaseBoard` that `from_fen` reads
and overwrites: `STARTING_POSITION` and `STARTING_COLOR` (the class
attribute `turn` always equals `STARTING_COLOR` after a `from_fen`
call, so it is not tracked separately). -/
structure ClassState where
  startingPosition : List Int
  startingColor : Color
deriving DecidableEq, Repr

/-- `BaseBoard.__populate_from_list` (`draughts/base.py` lines 283-295):
write `color.value` (or `color.value * Figure.KING.value` for a
`K`-prefixed item) at `square - 1` for every listed square, raising
`ValueError` at the first malformed or out-of-range item.  The boolean
records whether the loop completed without raising; the partially
written buffer is returned either way, because the caller catches the
exception. -/
def populateFromList (buf : List Int) (entries : List (List Char)) (colorVal : Int) :
    List Int × Bool :=
  match entries with
  | [] => (buf, true)
  | sq :: rest =>
    if isdigitL sq && (1 ≤ parseNat sq && parseNat sq ≤ buf.length) then
      populateFromList (buf.set (parseNat sq - 1) colorVal) rest colorVal
    else if sq.headD ' ' = 'K' && isdigitL sq.tail
        && (1 ≤ parseNat sq.tail && parseNat sq.tail ≤ buf.length) then
      populateFromList (buf.set (parseNat sq.tail - 1) (colorVal * figKING)) rest colorVal
    else
      (buf, false)

/-- The input-normalisation passes of `from_fen` (`draughts/base.py`
lines 251-263): uppercase the string, strip the premove markers, and if
the duplicated color-marker artifact `[WB]:[WB]:[WB]` is found, replace
every occurrence of the matched five characters by their last three. -/
def fenPreprocess (s : List Char) : List Char :=
  let s1 := s.map Char.toUpper
  let s2 := stripPremoves s1
  match findTriple s2 with
  | some p => replaceAll s2 p (p.drop 2)
  | none => s2

/-- The population phase of `from_fen` (lines 271-276): zero a buffer of
the class starting-position length, populate it from the white list and
— only if that did not raise — from the black list.  The boolean records
whether both populate calls completed; `from_fen` ignores it (the
exception is caught and logged). -/
def decodedBuffer (cs : ClassState) (w bl : List Char) : List Int × Bool :=
  let w1 := populateFromList (List.replicate cs.startingPosition.length 0)
    (splitOnChar ',' w) Color.White.val
  if w1.2 then populateFromList w1.1 (splitOnChar ',' bl) Color.Black.val else (w1.1, false)

/-- The tail of `from_fen` (lines 271-281) after the turn and the two
color lists have been extracted: the dead empty-lists check, the buffer
population, the class-state overwrite and the construction of the
returned board via `__init__`. -/
def fenAssemble (cs : ClassState) (t : Char) (w bl : List Char) : Option (ClassState × Board) :=
  if w = [] ∧ bl = [] then none
  else
    match boardInit (decodedBuffer cs w bl).1 (if t = 'W' then Color.White else Color.Black) with
    | some brd =>
      some (⟨(decodedBuffer cs w bl).1, if t = 'W' then Color.White else Color.Black⟩, brd)
    | none => none

/-- `BaseBoard.from_fen` (`draughts/base.py` lines 246-281).  `cs` is
the class-level state read and overwritten by the call.  Python
exceptions that escape the call (`AttributeError` for a missing turn or
color segment, `ValueError` for two empty lists or from `__init__`) are
modelled as `none`.  The `ValueError` raised by
`__populate_from_list` is caught by `from_fen` itself and only logged,
so population failures do not surface as `none`. -/
def from_fen (cs : ClassState) (s : List Char) : Option (ClassState × Board) :=
  match findTurn (fenPreprocess s), findColorList 'W' (fenPreprocess s),
      findColorList 'B' (fenPreprocess s) with
  | some t, some w, some bl => fenAssemble cs t w bl
  | _, _, _ => none

/-- A nine-move stack fixture (moves 1, 5 and 9 from the end share the
square list `[1, 2]`). -/
def stackNine : List Move :=
  [⟨[1, 2], [], [], false⟩, ⟨[3, 4], [], [], false⟩, ⟨[5, 6], [], [], false⟩,
   ⟨[7, 8], [], [], false⟩, ⟨[1, 2], [], [], false⟩, ⟨[9, 10], [], [], false⟩,
   ⟨[11, 12], [], [], false⟩, ⟨[13, 14], [], [], false⟩, ⟨[1, 2], [], [], false⟩]

/-- A board fixture carrying `stackNine`. -/
def boardNine : Board := ⟨[], Color.White, stackNine, 0⟩

/-- The characters that can occur in a square list emitted by `fen`. -/
def fenListChar (c : Char) : Prop :=
  c = 'K' ∨ c = ',' ∨ ∃ d, d < 10 ∧ c = digitChar d

theorem getD_set_self' {α : Type} (d : α) (l : List α) (i : Nat) (v : α) (h : i < l.length) :
    (l.set i v).getD i d = v := by
  rw [List.getD_eq_getElem _ _ (by simpa using h)]
  exact List.getElem_set_self _

theorem getD_set_of_ne {α : Type} (d : α) (l : List α) {i j : Nat} (v : α) (h : i ≠ j) :
    (l.set i v).getD j d = l.getD j d := by
  by_cases hj : j < l.length
  · rw [List.getD_eq_getElem _ _ (by simpa using hj), List.getD_eq_getElem _ _ hj]
    exact List.getElem_set_ne h _
  · have h1 : l.length ≤ j := le_of_not_lt hj
    rw [List.getD_eq_getElem?_getD, List.getD_eq_getElem?_getD,
      List.getElem?_eq_none (by simpa using h1), List.getElem?_eq_none h1]

theorem ext_getD (l₁ l₂ : List Int) (hlen : l₁.length = l₂.length)
    (h : ∀ i, l₁.getD i 0 = l₂.getD i 0) : l₁ = l₂ := by
  refine List.ext_getElem hlen (fun n h₁ h₂ => ?_)
  have := h n
  rwa [List.getD_eq_getElem _ _ h₁, List.getD_eq_getElem _ _ h₂] at this

theorem opposite_opposite (c : Color) : c.opposite.opposite = c := by
  cases c <;> rfl

theorem length_listSwap (pos : List Int) (src tg : Nat) :
    (listSwap pos src tg).length = pos.length := by
  simp [listSwap]

theorem getD_listSwap_src (pos : List Int) (src tg : Nat) (hsrc : src < pos.length)
    (hne : src ≠ tg) : (listSwap pos src tg).getD src 0 = pos.getD tg 0 := by
  unfold listSwap
  rw [getD_set_of_ne 0 _ _ (Ne.symm hne), getD_set_self' 0 _ _ _ hsrc]

theorem getD_listSwap_tg (pos : List Int) (src tg : Nat) (htg : tg < pos.length) :
    (listSwap pos src tg).getD tg 0 = pos.getD src 0 := by
  unfold listSwap
  rw [getD_set_self' 0 _ _ _ (by simpa using htg)]

theorem getD_listSwap_other (pos : List Int) (src tg i : Nat) (h1 : i ≠ src) (h2 : i ≠ tg) :
    (listSwap pos src tg).getD i 0 = pos.getD i 0 := by
  unfold listSwap
  rw [getD_set_of_ne 0 _ _ (Ne.symm h2), getD_set_of_ne 0 _ _ (Ne.symm h1)]

theorem length_clearCaptured (captured : List Nat) (pos : List Int) :
    (clearCaptured pos captured).length = pos.length := by
  induction captured generalizing pos with
  | nil => rfl
  | cons sq rest ih => rw [clearCaptured] at *; simpa [List.foldl_cons] using ih (pos.set sq figEMPTY)

theorem getD_set_zero (l : List Int) (i : Nat) : (l.set i 0).getD i 0 = 0 := by
  by_cases h : i < l.length
  · exact getD_set_self' 0 l i 0 h
  · have h1 : l.length ≤ i := le_of_not_lt h
    rw [List.getD_eq_getElem?_getD, List.getElem?_eq_none (by simpa using h1)]
    rfl

theorem getD_clearCaptured (captured : List Nat) (pos : List Int) (i : Nat) :
    (clearCaptured pos captured).getD i 0 = if i ∈ captured then 0 else pos.getD i 0 := by
  induction captured generalizing pos with
  | nil => simp [clearCaptured]
  | cons sq rest ih =>
    have hstep : clearCaptured pos (sq :: rest) = clearCaptured (pos.set sq figEMPTY) rest := rfl
    rw [hstep, ih]
    by_cases hin : i ∈ rest
    · simp [hin]
    · by_cases heq : i = sq
      · subst heq
        rw [if_neg hin, if_pos (List.mem_cons_self _ _)]
        exact getD_set_zero pos i
      · have hni : ¬ i ∈ sq :: rest := by simp [heq, hin]
        rw [if_neg hin, if_neg hni]
        exact getD_set_of_ne 0 pos figEMPTY (Ne.symm heq)

theorem length_restoreCaptured (captured : List Nat) (entities : List Int) (pos : List Int) :
    (restoreCaptured pos captured entities).length = pos.length := by
  induction captured generalizing pos entities with
  | nil => rfl
  | cons sq rest ih =>
    cases entities with
    | nil => rfl
    | cons e es =>
      have hstep : restoreCaptured pos (sq :: rest) (e :: es)
          = restoreCaptured (pos.set sq e) rest es := by
        simp [restoreCaptured, List.zip_cons_cons]
      rw [hstep]
      simpa using ih es (pos.set sq e)

theorem getD_restoreCaptured (captured : List Nat) (pos : List Int) (f : Nat → Int)
    (hb : ∀ sq ∈ captured, sq < pos.length) (i : Nat) :
    (restoreCaptured pos captured (captured.map f)).getD i 0 =
      if i ∈ captured then f i else pos.getD i 0 := by
  induction captured generalizing pos with
  | nil => simp [restoreCaptured]
  | cons sq rest ih =>
    have hstep : restoreCaptured pos (sq :: rest) ((sq :: rest).map f)
        = restoreCaptured (pos.set sq (f sq)) rest (rest.map f) := by
      simp [restoreCaptured, List.zip_cons_cons]
    rw [hstep, ih (pos.set sq (f sq))
      (fun x hx => by rw [List.length_set]; exact hb x (List.mem_cons_of_mem _ hx))]
    by_cases hin : i ∈ rest
    · simp [hin]
    · by_cases heq : i = sq
      · subst heq
        rw [if_neg hin, if_pos (List.mem_cons_self _ _)]
        exact getD_set_self' 0 pos _ _ (hb i (List.mem_cons_self _ _))
      · have hni : ¬ i ∈ sq :: rest := by simp [heq, hin]
        rw [if_neg hin, if_neg hni]
        exact getD_set_of_ne 0 pos (f sq) (Ne.symm heq)

theorem clearCaptured_ite (pos : List Int) (c : List Nat) :
    (if c = [] then pos else clearCaptured pos c) = clearCaptured pos c := by
  by_cases h : c = []
  · subst h; rfl
  · rw [if_neg h]

/-- C6: popping with an empty move stack raises (the Python
`self._moves_stack.pop()` on an empty list, modelled as `none`), for
either value of `is_finished`; the failing statement is the first of
`pop`, so the position buffer, the turn and the stack are untouched. -/
theorem pop_empty_raises (b : Board) (is_finished : Bool) (h : b.moves_stack = []) :
    pop b is_finished = none := by
  unfold pop
  rw [h]
  rfl

theorem pop_empty_raises_witness :
    pop ⟨[1, 0], Color.White, [], 2⟩ true = none
    ∧ pop ⟨[1, 0], Color.White, [], 2⟩ false = none :=
  ⟨pop_empty_raises ⟨[1, 0], Color.White, [], 2⟩ true rfl,
   pop_empty_raises ⟨[1, 0], Color.White, [], 2⟩ false rfl⟩

theorem isqrtAux_sq_le (k n : Nat) : isqrtAux k n * isqrtAux k n ≤ n := by
  induction k with
  | zero => simp [isqrtAux]
  | succ k ih =>
    unfold isqrtAux
    split
    · assumption
    · exact ih

theorem le_isqrtAux (k n j : Nat) (hj : j ≤ k) (hsq : j * j ≤ n) : j ≤ isqrtAux k n := by
  induction k with
  | zero => omega
  | succ k ih =>
    unfold isqrtAux
    split
    · omega
    · next hcond =>
      have hjk : j ≤ k := by
        by_contra hgt
        have hjq : j = k + 1 := by omega
        subst hjq
        exact hcond hsq
      exact ih hjk

theorem isqrt_mul_self (m : Nat) : isqrt (m * m) = m := by
  have h1 : isqrt (m * m) * isqrt (m * m) ≤ m * m := isqrtAux_sq_le _ _
  have h2 : m ≤ isqrt (m * m) := by
    refine le_isqrtAux _ _ m ?_ (le_refl _)
    nlinarith
  have h3 : isqrt (m * m) ≤ m := by
    by_contra hgt
    push_neg at hgt
    nlinarith
  omega

/-- C7: constructing a board from a buffer succeeds exactly when the
buffer length has the form n²/2 (equivalently, `2·length` is a perfect
square `n·n`), in which case the board's shape is `(n, n)`; any other
length makes `__init__` raise (modelled as `none`). -/
theorem boardInit_geometry (p : List Int) (c : Color) :
    (∀ n : Nat, p.length * 2 = n * n → boardInit p c = some ⟨p, c, [], n⟩)
    ∧ ((¬ ∃ n : Nat, p.length * 2 = n * n) → boardInit p c = none) := by
  have heq : boardInit p c
      = if isqrt (p.length * 2) * isqrt (p.length * 2) = p.length * 2
        then some ⟨p, c, [], isqrt (p.length * 2)⟩ else none := rfl
  constructor
  · intro n hn
    have hs : isqrt (p.length * 2) = n := by rw [hn, isqrt_mul_self]
    rw [heq, hs, if_pos hn.symm]
  · intro h
    rw [heq, if_neg]
    intro hcond
    exact h ⟨_, hcond.symm⟩

theorem boardInit_geometry_witness :
    boardInit (List.replicate 32 0) Color.White
      = some ⟨List.replicate 32 0, Color.White, [], 8⟩
    ∧ boardInit (List.replicate 17 0) Color.White = none :=
  ⟨(boardInit_geometry (List.replicate 32 0) Color.White).1 8 (by decide),
   (boardInit_geometry (List.replicate 17 0) Color.White).2 (by
      rintro ⟨n, hn⟩
      have h17 : (List.replicate (17 : Nat) (0 : Int)).length = 17 := by simp
      rw [h17] at hn
      have hn6 : n < 6 := by nlinarith
      interval_cases n <;> omega)⟩

theorem is_threefold_repetition_iff (b : Board) :
    is_threefold_repetition b = true ↔
      9 ≤ b.moves_stack.length
      ∧ (b.moves_stack.getD (b.moves_stack.length - 1) default).square_list
          = (b.moves_stack.getD (b.moves_stack.length - 5) default).square_list
      ∧ (b.moves_stack.getD (b.moves_stack.length - 5) default).square_list
          = (b.moves_stack.getD (b.moves_stack.length - 9) default).square_list := by
  unfold is_threefold_repetition
  by_cases h : 9 ≤ b.moves_stack.length
  · simp only [if_pos h, Bool.and_eq_true, beq_iff_eq]
    tauto
  · simp [h]

/-- C8: `is_threefold_repetition` is true iff the move stack has at
least 9 entries and the square list of the last move equals both the
5th-from-last and the 9th-from-last square lists; and replacing any one
of those three square lists by a different list makes it false. -/
theorem threefold_spec (b : Board) :
    (is_threefold_repetition b = true ↔
      9 ≤ b.moves_stack.length
      ∧ (b.moves_stack.getD (b.moves_stack.length - 1) default).square_list
          = (b.moves_stack.getD (b.moves_stack.length - 5) default).square_list
      ∧ (b.moves_stack.getD (b.moves_stack.length - 1) default).square_list
          = (b.moves_stack.getD (b.moves_stack.length - 9) default).square_list)
    ∧ (∀ k, (k = b.moves_stack.length - 1 ∨ k = b.moves_stack.length - 5
          ∨ k = b.moves_stack.length - 9) →
        ∀ l : List Nat, is_threefold_repetition b = true →
        l ≠ (b.moves_stack.getD k default).square_list →
        is_threefold_repetition
          { b with
            moves_stack :=
              b.moves_stack.set k
                ({ b.moves_stack.getD k default with square_list := l }) } = false) := by
  constructor
  · rw [is_threefold_repetition_iff]
    constructor
    · rintro ⟨h9, h15, h59⟩
      exact ⟨h9, h15, h15.trans h59⟩
    · rintro ⟨h9, h15, h19⟩
      exact ⟨h9, h15, h15.symm.trans h19⟩
  · intro k hk l htrue hne
    rcases (is_threefold_repetition_iff b).mp htrue with ⟨h9, h15, h59⟩
    by_contra hfalse
    have htrue' := eq_true_of_ne_false hfalse
    rcases (is_threefold_repetition_iff _).mp htrue' with ⟨h9', hA, hB⟩
    simp only [List.length_set] at h9' hA hB
    have hne15 : b.moves_stack.length - 1 ≠ b.moves_stack.length - 5 := by omega
    have hne19 : b.moves_stack.length - 1 ≠ b.moves_stack.length - 9 := by omega
    have hne59 : b.moves_stack.length - 5 ≠ b.moves_stack.length - 9 := by omega
    have hk1 : b.moves_stack.length - 1 < b.moves_stack.length := by omega
    have hk5 : b.moves_stack.length - 5 < b.moves_stack.length := by omega
    have hk9 : b.moves_stack.length - 9 < b.moves_stack.length := by omega
    rcases hk with hk | hk | hk <;> subst hk
    · rw [getD_set_self' default _ _ _ hk1,
        getD_set_of_ne default _ _ hne15] at hA
      exact hne (hA.trans h15.symm)
    · rw [getD_set_of_ne default _ _ (Ne.symm hne15),
        getD_set_self' default _ _ _ hk5] at hA
      exact hne (hA.symm.trans h15)
    · rw [getD_set_of_ne default _ _ (Ne.symm hne59),
        getD_set_self' default _ _ _ hk9] at hB
      exact hne (hB.symm.trans h59)

theorem threefold_spec_witness :
    is_threefold_repetition boardNine = true
    ∧ is_threefold_repetition
        { boardNine with
          moves_stack :=
            boardNine.moves_stack.set 8
              ({ boardNine.moves_stack.getD 8 default with square_list := [99] }) } = false := by
  constructor
  · exact (threefold_spec boardNine).1.mpr (by decide)
  · exact (threefold_spec boardNine).2 8 (by decide) [99]
      ((threefold_spec boardNine).1.mpr (by decide)) (by decide)

/-- C2: the promotion step of `push` — applied to the position after the
origin/destination swap and before captured squares are cleared —
multiplies exactly the destination cell by K (once) and sets
`is_promotion` to true when that cell holds a white man on row 0 of the
expanded grid or a black man on row `shape − 1`; in every other case
(in particular a king on the back row, or a man not on the back row)
the position and the move are returned unchanged. -/
theorem promoStep_spec (shape : Nat) (pos : List Int) (tg : Nat) (m : Move) :
    ((tg / (shape / 2) = 0 ∧ pos.getD tg 0 = figWHITE_MAN)
        ∨ (tg / (shape / 2) = shape - 1 ∧ pos.getD tg 0 = figBLACK_MAN) →
      promoStep shape pos tg m =
        (pos.set tg (pos.getD tg 0 * figKING), { m with is_promotion := true }))
    ∧ (pos.getD tg 0 = figWHITE_KING ∨ pos.getD tg 0 = figBLACK_KING ∨ pos.getD tg 0 = figEMPTY →
      promoStep shape pos tg m = (pos, m))
    ∧ (tg / (shape / 2) ≠ 0 → tg / (shape / 2) ≠ shape - 1 →
      promoStep shape pos tg m = (pos, m))
    ∧ (¬ ((tg / (shape / 2) = 0 ∧ pos.getD tg 0 = figWHITE_MAN)
        ∨ (tg / (shape / 2) = shape - 1 ∧ pos.getD tg 0 = figBLACK_MAN)) →
      promoStep shape pos tg m = (pos, m)) := by
  refine ⟨fun h => ?_, fun h => ?_, fun h1 h2 => ?_, fun h => ?_⟩
  · rw [promoStep, if_pos h]
  · rw [promoStep, if_neg]
    rintro (⟨_, hv⟩ | ⟨_, hv⟩) <;>
      rcases h with h | h | h <;>
        rw [h] at hv <;>
          simp [figWHITE_KING, figBLACK_KING, figEMPTY, figWHITE_MAN, figBLACK_MAN] at hv
  · rw [promoStep, if_neg]
    rintro (⟨hr, _⟩ | ⟨hr, _⟩)
    · exact h1 hr
    · exact h2 hr
  · rw [promoStep, if_neg h]

theorem promoStep_spec_witness :
    promoStep 2 [-1, 0] 0 ⟨[1, 0], [], [], false⟩ = ([-3, 0], ⟨[1, 0], [], [], true⟩)
    ∧ promoStep 2 [-3, 0] 0 ⟨[1, 0], [], [], false⟩ = ([-3, 0], ⟨[1, 0], [], [], false⟩) := by
  constructor
  · rw [(promoStep_spec 2 [-1, 0] 0 ⟨[1, 0], [], [], false⟩).1 (Or.inl ⟨by decide, by decide⟩)]
    decide
  · rw [(promoStep_spec 2 [-3, 0] 0 ⟨[1, 0], [], [], false⟩).2.1 (Or.inl (by decide))]

/-- C10 counterexample: on a 2×2 board with a white man on square 1
moving to the back-row square 0, the draughts push promotes (the cell
becomes −3 and the recorded move has `is_promotion = true`) while the
checkers push leaves a −1 man and a false flag, so the two
move-execution engines are not extensionally equal. -/
theorem push_engines_differ :
    push ⟨[0, -1], Color.White, [], 2⟩ ⟨[1, 0], [], [], false⟩ true
      ≠ checkersPush ⟨[0, -1], Color.White, [], 2⟩ ⟨[1, 0], [], [], false⟩ true
    ∧ (push ⟨[0, -1], Color.White, [], 2⟩ ⟨[1, 0], [], [], false⟩ true).pos = [-3, 0]
    ∧ (checkersPush ⟨[0, -1], Color.White, [], 2⟩ ⟨[1, 0], [], [], false⟩ true).pos = [-1, 0] := by
  decide

/-- C10 amended: the checkers push equals the draughts push whenever the
promotion condition does not hold at the destination after the swap; when
it does hold, the draughts result differs from the checkers result
exactly by multiplying the destination cell by K before the captures are
cleared and by recording `is_promotion = true` on the stacked move. -/
theorem push_engines_agree_unless_promotion (b : Board) (m : Move) (f : Bool) :
    (¬ ((m.square_list.getLastD 0 / (b.shape / 2) = 0
          ∧ (listSwap b.pos (m.square_list.headD 0) (m.square_list.getLastD 0)).getD
              (m.square_list.getLastD 0) 0 = figWHITE_MAN)
        ∨ (m.square_list.getLastD 0 / (b.shape / 2) = b.shape - 1
          ∧ (listSwap b.pos (m.square_list.headD 0) (m.square_list.getLastD 0)).getD
              (m.square_list.getLastD 0) 0 = figBLACK_MAN)) →
      checkersPush b m f = push b m f)
    ∧ (((m.square_list.getLastD 0 / (b.shape / 2) = 0
          ∧ (listSwap b.pos (m.square_list.headD 0) (m.square_list.getLastD 0)).getD
              (m.square_list.getLastD 0) 0 = figWHITE_MAN)
        ∨ (m.square_list.getLastD 0 / (b.shape / 2) = b.shape - 1
          ∧ (listSwap b.pos (m.square_list.headD 0) (m.square_list.getLastD 0)).getD
              (m.square_list.getLastD 0) 0 = figBLACK_MAN)) →
      push b m f =
        { checkersPush b m f with
          pos :=
            (if m.captured_list = [] then
              (listSwap b.pos (m.square_list.headD 0) (m.square_list.getLastD 0)).set
                (m.square_list.getLastD 0)
                ((listSwap b.pos (m.square_list.headD 0) (m.square_list.getLastD 0)).getD
                  (m.square_list.getLastD 0) 0 * figKING)
            else
              clearCaptured
                ((listSwap b.pos (m.square_list.headD 0) (m.square_list.getLastD 0)).set
                  (m.square_list.getLastD 0)
                  ((listSwap b.pos (m.square_list.headD 0) (m.square_list.getLastD 0)).getD
                    (m.square_list.getLastD 0) 0 * figKING))
                m.captured_list)
          moves_stack := b.moves_stack ++ [{ m with is_promotion := true }] }) := by
  constructor
  · intro h
    simp only [push, checkersPush, promoStep, if_neg h]
  · intro h
    simp only [push, checkersPush, promoStep, if_pos h]

theorem push_engines_agree_witness :
    checkersPush ⟨[0, -1], Color.White, [], 2⟩ ⟨[0, 1], [], [], false⟩ true
      = push ⟨[0, -1], Color.White, [], 2⟩ ⟨[0, 1], [], [], false⟩ true :=
  (push_engines_agree_unless_promotion ⟨[0, -1], Color.White, [], 2⟩
    ⟨[0, 1], [], [], false⟩ true).1 (by decide)

theorem promoStep_cases (shape : Nat) (pos : List Int) (tg : Nat) (m : Move) :
    promoStep shape pos tg m
        = (pos.set tg (pos.getD tg 0 * figKING), { m with is_promotion := true })
    ∨ promoStep shape pos tg m = (pos, m) := by
  unfold promoStep
  split
  · exact Or.inl rfl
  · exact Or.inr rfl

theorem Board.mk_eq (p1 p2 : List Int) (t1 t2 : Color) (s1 s2 : List Move) (n1 n2 : Nat)
    (hp : p1 = p2) (ht : t1 = t2) (hs : s1 = s2) (hn : n1 = n2) :
    Board.mk p1 t1 s1 n1 = Board.mk p2 t2 s2 n2 := by
  rw [hp, ht, hs, hn]

theorem pop_concat (b : Board) (mv : Move) (f : Bool) (s : List Move)
    (hs : b.moves_stack = s ++ [mv]) :
    pop b f = some
      ({ b with
         pos := restoreCaptured
           (listSwap
             (if mv.is_promotion then
               b.pos.set (mv.square_list.getLastD 0)
                 ((b.pos.getD (mv.square_list.getLastD 0) 0).fdiv figKING)
             else b.pos)
             (mv.square_list.headD 0) (mv.square_list.getLastD 0))
           mv.captured_list mv.captured_entities
         moves_stack := s
         turn := if f then b.turn.opposite else b.turn }, mv) := by
  unfold pop
  rw [hs, List.getLast?_concat, List.dropLast_concat]

theorem pop_body_restores (bpos : List Int) (src tg : Nat) (cap : List Nat)
    (q : List Int) (hlen : q.length = bpos.length)
    (hsrcb : src < bpos.length) (htgb : tg < bpos.length) (hst : src ≠ tg)
    (hq_tg : q.getD tg 0 = bpos.getD src 0)
    (hq_src : q.getD src 0 = 0)
    (hdst : bpos.getD tg 0 = 0)
    (hq_other : ∀ i, i ≠ src → i ≠ tg → i ∉ cap → q.getD i 0 = bpos.getD i 0)
    (hcapb : ∀ sq ∈ cap, sq < bpos.length) :
    restoreCaptured (listSwap q src tg) cap (cap.map (fun sq => bpos.getD sq 0)) = bpos := by
  apply ext_getD
  · rw [length_restoreCaptured, length_listSwap, hlen]
  · intro i
    rw [getD_restoreCaptured cap _ _ (fun sq hsq => by
        rw [length_listSwap, hlen]; exact hcapb sq hsq) i]
    by_cases hic : i ∈ cap
    · rw [if_pos hic]
    · rw [if_neg hic]
      by_cases his : i = src
      · subst his
        rw [getD_listSwap_src q i tg (by rw [hlen]; exact hsrcb) hst, hq_tg]
      · by_cases hit : i = tg
        · subst hit
          rw [getD_listSwap_tg q src i (by rw [hlen]; exact htgb), hq_src, hdst]
        · rw [getD_listSwap_other q src tg i his hit]
          exact hq_other i his hit hic

/-- C1: for a legally-applicable move (origin inside the buffer and
occupied by a piece of the side to move, destination inside the buffer
and empty, every captured square holding an opponent piece whose
pre-capture value is recorded in `captured_entities`, and `is_promotion`
initially false), `push` followed by `pop` with the same `is_finished`
flag — for both `true` and `false` — returns the position buffer, the
turn and the move stack to exactly their state before the push. -/
theorem push_pop_roundtrip (b : Board) (m : Move) (f : Bool)
    (hsq : 2 ≤ m.square_list.length)
    (hsrcb : m.square_list.headD 0 < b.pos.length)
    (htgb : m.square_list.getLastD 0 < b.pos.length)
    (hocc : 0 < b.pos.getD (m.square_list.headD 0) 0 * b.turn.val)
    (hdst : b.pos.getD (m.square_list.getLastD 0) 0 = 0)
    (hent : m.captured_entities = m.captured_list.map (fun sq => b.pos.getD sq 0))
    (hcap : ∀ sq ∈ m.captured_list, sq < b.pos.length
      ∧ b.pos.getD sq 0 * b.pos.getD (m.square_list.headD 0) 0 < 0)
    (hpromo : m.is_promotion = false) :
    ∃ m' : Move, pop (push b m f) f = some (b, m') := by
  obtain ⟨bpos, bturn, bstack, bshape⟩ := b
  dsimp only at hsrcb htgb hocc hdst hent hcap
  have hv : (listSwap bpos (m.square_list.headD 0) (m.square_list.getLastD 0)).getD
      (m.square_list.getLastD 0) 0 = bpos.getD (m.square_list.headD 0) 0 :=
    getD_listSwap_tg bpos _ _ htgb
  have hp : bpos.getD (m.square_list.headD 0) 0 ≠ 0 := by
    intro h0
    rw [h0] at hocc
    simp at hocc
  have hst : m.square_list.headD 0 ≠ m.square_list.getLastD 0 := by
    intro h
    rw [h] at hp
    exact hp hdst
  have htg_cap : m.square_list.getLastD 0 ∉ m.captured_list := by
    intro hmem
    have h2 := (hcap _ hmem).2
    rw [hdst] at h2
    simp at h2
  have hsrc_cap : m.square_list.headD 0 ∉ m.captured_list := by
    intro hmem
    have h2 := (hcap _ hmem).2
    exact absurd h2 (not_lt.mpr (mul_self_nonneg _))
  have hsrc1 : (listSwap bpos (m.square_list.headD 0) (m.square_list.getLastD 0)).getD
      (m.square_list.headD 0) 0 = bpos.getD (m.square_list.getLastD 0) 0 :=
    getD_listSwap_src bpos _ _ hsrcb hst
  have hpos : (push ⟨bpos, bturn, bstack, bshape⟩ m f).pos
      = clearCaptured (promoStep bshape
          (listSwap bpos (m.square_list.headD 0) (m.square_list.getLastD 0))
          (m.square_list.getLastD 0) m).1 m.captured_list := by
    show (if m.captured_list = [] then _ else _) = _
    exact clearCaptured_ite _ _
  have hturn : (if f then (push ⟨bpos, bturn, bstack, bshape⟩ m f).turn.opposite
      else (push ⟨bpos, bturn, bstack, bshape⟩ m f).turn) = bturn := by
    have hpt : (push ⟨bpos, bturn, bstack, bshape⟩ m f).turn
        = if f then bturn.opposite else bturn := rfl
    rw [hpt]
    cases f
    · simp
    · simp [opposite_opposite]
  rcases promoStep_cases bshape
      (listSwap bpos (m.square_list.headD 0) (m.square_list.getLastD 0))
      (m.square_list.getLastD 0) m with hpm | hpm
  · refine ⟨{ m with is_promotion := true }, ?_⟩
    have hstack : (push ⟨bpos, bturn, bstack, bshape⟩ m f).moves_stack
        = bstack ++ [{ m with is_promotion := true }] := by
      show bstack ++ [(promoStep bshape
        (listSwap bpos (m.square_list.headD 0) (m.square_list.getLastD 0))
        (m.square_list.getLastD 0) m).2] = _
      rw [hpm]
    rw [pop_concat _ _ f bstack hstack]
    congr 1
    congr 1
    refine Board.mk_eq _ _ _ _ _ _ _ _ ?_ hturn rfl rfl
    dsimp only
    rw [hpos, hpm]
    dsimp only
    rw [if_pos rfl, hent]
    apply pop_body_restores bpos (m.square_list.headD 0) (m.square_list.getLastD 0)
      m.captured_list _ ?_ hsrcb htgb hst ?_ ?_ hdst ?_ (fun sq hsq => (hcap sq hsq).1)
    · rw [List.length_set, length_clearCaptured, List.length_set, length_listSwap]
    · rw [getD_set_self' 0 _ _ _ (by
        rw [length_clearCaptured, List.length_set, length_listSwap]; exact htgb)]
      rw [getD_clearCaptured, if_neg htg_cap,
        getD_set_self' 0 _ _ _ (by rw [length_listSwap]; exact htgb), hv]
      exact Int.mul_fdiv_cancel _ (by decide)
    · rw [getD_set_of_ne 0 _ _ (Ne.symm hst), getD_clearCaptured, if_neg hsrc_cap,
        getD_set_of_ne 0 _ _ (Ne.symm hst), hsrc1, hdst]
    · intro i his hit hic
      rw [getD_set_of_ne 0 _ _ (Ne.symm hit), getD_clearCaptured, if_neg hic,
        getD_set_of_ne 0 _ _ (Ne.symm hit), getD_listSwap_other bpos _ _ i his hit]
  · refine ⟨m, ?_⟩
    have hstack : (push ⟨bpos, bturn, bstack, bshape⟩ m f).moves_stack = bstack ++ [m] := by
      show bstack ++ [(promoStep bshape
        (listSwap bpos (m.square_list.headD 0) (m.square_list.getLastD 0))
        (m.square_list.getLastD 0) m).2] = _
      rw [hpm]
    rw [pop_concat _ _ f bstack hstack]
    congr 1
    congr 1
    refine Board.mk_eq _ _ _ _ _ _ _ _ ?_ hturn rfl rfl
    rw [hpos, hpm]
    dsimp only
    rw [hpromo, if_neg (by simp), hent]
    apply pop_body_restores bpos (m.square_list.headD 0) (m.square_list.getLastD 0)
      m.captured_list _ ?_ hsrcb htgb hst ?_ ?_ hdst ?_ (fun sq hsq => (hcap sq hsq).1)
    · rw [length_clearCaptured, length_listSwap]
    · rw [getD_clearCaptured, if_neg htg_cap, hv]
    · rw [getD_clearCaptured, if_neg hsrc_cap, hsrc1, hdst]
    · intro i his hit hic
      rw [getD_clearCaptured, if_neg hic, getD_listSwap_other bpos _ _ i his hit]

theorem push_pop_roundtrip_witness :
    ∃ m' : Move,
      pop (push ⟨[-1, 0, 1, 0], Color.White, [], 2⟩ ⟨[0, 1], [2], [1], false⟩ true) true
        = some (⟨[-1, 0, 1, 0], Color.White, [], 2⟩, m') :=
  push_pop_roundtrip ⟨[-1, 0, 1, 0], Color.White, [], 2⟩ ⟨[0, 1], [2], [1], false⟩ true
    (by decide) (by decide) (by decide) (by decide) (by decide) (by decide)
    (by decide) (by decide)

theorem boardInit_fields (p : List Int) (c : Color) (brd : Board)
    (h : boardInit p c = some brd) : brd.pos = p ∧ brd.turn = c := by
  have heq : boardInit p c
      = if isqrt (p.length * 2) * isqrt (p.length * 2) = p.length * 2
        then some ⟨p, c, [], isqrt (p.length * 2)⟩ else none := rfl
  rw [heq] at h
  split at h
  · injection h with h1
    rw [← h1]
    exact ⟨rfl, rfl⟩
  · cases h

/-- C9: every successful `from_fen` call overwrites the class-level
state that outlives the call: the new `STARTING_POSITION` is the decoded
buffer and the new `STARTING_COLOR` (and the class attribute `turn`) is
the decoded side to move, so a board constructed afterwards from the
class defaults — which is exactly what `from_fen`'s own final
construction does — reproduces the decoded position and turn rather
than the original class defaults. -/
theorem from_fen_overwrites_class_state (cs : ClassState) (s : List Char)
    (cs' : ClassState) (b : Board) (h : from_fen cs s = some (cs', b)) :
    cs'.startingPosition = b.pos ∧ cs'.startingColor = b.turn
    ∧ boardInit cs'.startingPosition cs'.startingColor = some b := by
  unfold from_fen at h
  split at h
  · next t w bl =>
    unfold fenAssemble at h
    split at h
    · cases h
    · split at h
      · next brd heq =>
        injection h with h1
        injection h1 with hcs hb
        subst hcs
        subst hb
        obtain ⟨hpos, hturn⟩ := boardInit_fields _ _ _ heq
        exact ⟨hpos.symm, hturn.symm, heq⟩
      · cases h
  · next _ _ _ _ => cases h

theorem from_fen_overwrites_class_state_witness :
    ∃ cs' : ClassState, ∃ b : Board,
      from_fen ⟨List.replicate 32 0, Color.White⟩
          ['B', ':', 'W', '1', ':', 'B', '2'] = some (cs', b)
      ∧ cs'.startingPosition = b.pos ∧ cs'.startingColor = b.turn
      ∧ boardInit cs'.startingPosition cs'.startingColor = some b := by
  refine ⟨⟨(-1 : Int) :: (1 : Int) :: List.replicate 30 0, Color.Black⟩,
    ⟨(-1 : Int) :: (1 : Int) :: List.replicate 30 0, Color.Black, [], 8⟩, ?_, ?_⟩
  · decide
  · exact from_fen_overwrites_class_state ⟨List.replicate 32 0, Color.White⟩
      ['B', ':', 'W', '1', ':', 'B', '2'] _ _ (by decide)

/-- C5 (code-bug evidence): decoding a notation string whose white list
contains the out-of-range square 41 on a 32-square board does not raise:
`__populate_from_list` raises `ValueError`, but `from_fen` catches it
and merely logs it (`except ValueError as e: logger.error(...)`), then
builds and returns a Board.  The returned board silently drops the
offending square, and because the white populate aborted, the whole
black list as well: the decoded position is entirely empty. -/
theorem from_fen_out_of_range_returns_board :
    from_fen ⟨List.replicate 32 0, Color.White⟩
        ['W', ':', 'W', '4', '1', ':', 'B', '2']
      = some (⟨List.replicate 32 0, Color.White⟩,
              ⟨List.replicate 32 0, Color.White, [], 8⟩)
    ∧ populateFromList (List.replicate 32 0) (splitOnChar ',' ['4', '1']) Color.White.val
      = (List.replicate 32 0, false) := by
  constructor
  · decide
  · decide

/-- C3 counterexample: for a board with black to move, the first
colon-separated field of the fen payload is the literal artifact `W`
while the turn token `B` only appears as the second field — the claimed
field order (turn first, then the prefix artifact) does not match the
encoder, which emits `[FEN "W:B:W1:B2"]` here. -/
theorem fen_first_field_is_artifact :
    (⟨[-1, 1], Color.Black, [], 2⟩ : Board).turn = Color.Black
    ∧ colorRepr Color.Black = 'B'
    ∧ fenFields ⟨[-1, 1], Color.Black, [], 2⟩
        = [['W'], ['B'], ['W', '1'], ['B', '2']] := by
  refine ⟨rfl, rfl, ?_⟩
  decide

theorem boardInit_of_sq (p : List Int) (c : Color) (n : Nat) (hn : p.length * 2 = n * n) :
    boardInit p c = some ⟨p, c, [], n⟩ := by
  have heq : boardInit p c
      = if isqrt (p.length * 2) * isqrt (p.length * 2) = p.length * 2
        then some ⟨p, c, [], isqrt (p.length * 2)⟩ else none := rfl
  have hs : isqrt (p.length * 2) = n := by rw [hn, isqrt_mul_self]
  rw [heq, hs, if_pos hn.symm]

theorem natDigitsAux_stable (n : Nat) : ∀ f1 f2, n < f1 → n < f2 →
    natDigitsAux f1 n = natDigitsAux f2 n := by
  induction n using Nat.strong_induction_on with
  | _ n ih =>
    intro f1 f2 h1 h2
    match f1, h1 with
    | f1' + 1, _ =>
      match f2, h2 with
      | f2' + 1, _ =>
        unfold natDigitsAux
        by_cases hn : n < 10
        · rw [if_pos hn, if_pos hn]
        · rw [if_neg hn, if_neg hn]
          have hlt : n / 10 < n := Nat.div_lt_self (by omega) (by omega)
          rw [ih (n / 10) hlt f1' f2' (by omega) (by omega)]

theorem natDigitsAux_eq (n f : Nat) (h : n < f) : natDigitsAux f n = natDigits n :=
  natDigitsAux_stable n f (n + 1) h (Nat.lt_succ_self n)

theorem natDigitsAux_mem (f : Nat) : ∀ (n : Nat), ∀ c ∈ natDigitsAux f n,
    ∃ d, d < 10 ∧ c = digitChar d := by
  induction f with
  | zero => intro n c hc; cases hc
  | succ f ih =>
    intro n c hc
    unfold natDigitsAux at hc
    by_cases hn : n < 10
    · rw [if_pos hn] at hc
      rcases List.mem_singleton.mp hc with rfl
      exact ⟨n, hn, rfl⟩
    · rw [if_neg hn] at hc
      rcases List.mem_append.mp hc with h | h
      · exact ih (n / 10) c h
      · rcases List.mem_singleton.mp h with rfl
        exact ⟨n % 10, Nat.mod_lt n (by omega), rfl⟩

theorem natDigits_mem (n : Nat) : ∀ c ∈ natDigits n, ∃ d, d < 10 ∧ c = digitChar d :=
  natDigitsAux_mem (n + 1) n

theorem digitChar_facts (d : Nat) (hd : d < 10) :
    (digitChar d).toUpper = digitChar d
    ∧ isDigitChar (digitChar d) = true
    ∧ isSquareClass (digitChar d) = true
    ∧ isWB (digitChar d) = false
    ∧ digitChar d ≠ 'G' ∧ digitChar d ≠ 'P' ∧ digitChar d ≠ ','
    ∧ digitChar d ≠ ':' ∧ digitChar d ≠ '"' ∧ digitChar d ≠ 'W'
    ∧ digitChar d ≠ 'B' ∧ digitChar d ≠ 'K'
    ∧ digitVal (digitChar d) = d := by
  interval_cases d <;> exact (by decide)

theorem parseNat_append (l : List Char) (c : Char) :
    parseNat (l ++ [c]) = parseNat l * 10 + digitVal c := by
  unfold parseNat
  rw [List.foldl_append]
  rfl

theorem natDigits_ne_nil (n : Nat) : natDigits n ≠ [] := by
  unfold natDigits natDigitsAux
  by_cases hn : n < 10
  · rw [if_pos hn]
    simp
  · rw [if_neg hn]
    simp

theorem parseNat_natDigits (n : Nat) : parseNat (natDigits n) = n := by
  induction n using Nat.strong_induction_on with
  | _ n ih =>
    have hstep : natDigits n
        = if n < 10 then [digitChar n]
          else natDigitsAux n (n / 10) ++ [digitChar (n % 10)] := rfl
    by_cases hn : n < 10
    · rw [hstep, if_pos hn]
      unfold parseNat
      simp [List.foldl_cons, (digitChar_facts n hn).2.2.2.2.2.2.2.2.2.2.2.2]
    · rw [hstep, if_neg hn]
      have hlt : n / 10 < n := Nat.div_lt_self (by omega) (by omega)
      rw [natDigitsAux_eq _ _ hlt, parseNat_append, ih (n / 10) hlt,
        (digitChar_facts (n % 10) (Nat.mod_lt n (by omega))).2.2.2.2.2.2.2.2.2.2.2.2]
      omega

theorem isdigitL_natDigits (n : Nat) : isdigitL (natDigits n) = true := by
  unfold isdigitL
  rw [Bool.and_eq_true]
  constructor
  · rw [Bool.not_eq_true']
    rw [List.isEmpty_eq_false]
    exact natDigits_ne_nil n
  · rw [List.all_eq_true]
    intro c hc
    rcases natDigits_mem n c hc with ⟨d, hd, rfl⟩
    exact (digitChar_facts d hd).2.1

theorem mem_joinComma : ∀ (es : List (List Char)) (c : Char), c ∈ joinComma es →
    (∃ e ∈ es, c ∈ e) ∨ c = ',' := by
  intro es
  induction es with
  | nil => intro c hc; cases hc
  | cons e rest ih =>
    intro c hc
    cases rest with
    | nil =>
      exact Or.inl ⟨e, List.mem_cons_self _ _, hc⟩
    | cons e2 r2 =>
      rw [show joinComma (e :: e2 :: r2) = e ++ ',' :: joinComma (e2 :: r2) from rfl] at hc
      rcases List.mem_append.mp hc with h | h
      · exact Or.inl ⟨e, List.mem_cons_self _ _, h⟩
      · rcases List.mem_cons.mp h with h | h
        · exact Or.inr h
        · rcases ih c h with ⟨e', he', hce'⟩ | h
          · exact Or.inl ⟨e', List.mem_cons_of_mem _ he', hce'⟩
          · exact Or.inr h

theorem joinComma_ne_nil (es : List (List Char)) (h : es ≠ []) (h2 : ∀ e ∈ es, e ≠ []) :
    joinComma es ≠ [] := by
  cases es with
  | nil => exact absurd rfl h
  | cons e rest =>
    cases rest with
    | nil => exact h2 e (List.mem_cons_self _ _)
    | cons e2 r2 =>
      rw [show joinComma (e :: e2 :: r2) = e ++ ',' :: joinComma (e2 :: r2) from rfl]
      simp

theorem fenListChar_facts (c : Char) (h : fenListChar c) :
    c.toUpper = c ∧ isSquareClass c = true ∧ isWB c = false
    ∧ c ≠ 'G' ∧ c ≠ 'P' ∧ c ≠ ':' ∧ c ≠ '"' ∧ c ≠ 'W' ∧ c ≠ 'B' := by
  rcases h with rfl | rfl | ⟨d, hd, rfl⟩
  · exact (by decide)
  · exact (by decide)
  · obtain ⟨h1, h2, h3, h4, h5, h6, h7, h8, h9, h10, h11, h12, h13⟩ := digitChar_facts d hd
    exact ⟨h1, h3, h4, h5, h6, h8, h9, h10, h11⟩

theorem fenItemNeg_chars (pos : List Int) (sq : Nat) :
    ∀ c ∈ fenItemNeg pos sq, c = 'K' ∨ ∃ d, d < 10 ∧ c = digitChar d := by
  intro c hc
  unfold fenItemNeg at hc
  rcases List.mem_append.mp hc with h | h
  · by_cases hk : pos.getD sq 0 < -1
    · rw [if_pos hk] at h
      rcases List.mem_singleton.mp h with rfl
      exact Or.inl rfl
    · rw [if_neg hk] at h
      cases h
  · exact Or.inr (natDigits_mem _ c h)

theorem fenItemPos_chars (pos : List Int) (sq : Nat) :
    ∀ c ∈ fenItemPos pos sq, c = 'K' ∨ ∃ d, d < 10 ∧ c = digitChar d := by
  intro c hc
  unfold fenItemPos at hc
  rcases List.mem_append.mp hc with h | h
  · by_cases hk : 1 < pos.getD sq 0
    · rw [if_pos hk] at h
      rcases List.mem_singleton.mp h with rfl
      exact Or.inl rfl
    · rw [if_neg hk] at h
      cases h
  · exact Or.inr (natDigits_mem _ c h)

theorem fenItemNeg_ne_nil (pos : List Int) (sq : Nat) : fenItemNeg pos sq ≠ [] := by
  unfold fenItemNeg
  intro h
  rcases List.append_eq_nil.mp h with ⟨_, h2⟩
  exact natDigits_ne_nil _ h2

theorem fenItemPos_ne_nil (pos : List Int) (sq : Nat) : fenItemPos pos sq ≠ [] := by
  unfold fenItemPos
  intro h
  rcases List.append_eq_nil.mp h with ⟨_, h2⟩
  exact natDigits_ne_nil _ h2

theorem fenJoin_chars (items : List (List Char))
    (hitems : ∀ e ∈ items, ∀ c ∈ e, c = 'K' ∨ ∃ d, d < 10 ∧ c = digitChar d) :
    ∀ c ∈ joinComma items, fenListChar c := by
  intro c hc
  rcases mem_joinComma items c hc with ⟨e, he, hce⟩ | rfl
  · rcases hitems e he c hce with h | h
    · exact Or.inl h
    · exact Or.inr (Or.inr h)
  · exact Or.inr (Or.inl rfl)

theorem stripPremovesAux_id (fuel : Nat) : ∀ (l : List Char),
    (∀ c ∈ l, c ≠ 'G' ∧ c ≠ 'P') → stripPremovesAux fuel l = l := by
  induction fuel with
  | zero => intro l _; rfl
  | succ fuel ih =>
    intro l h
    cases l with
    | nil => rfl
    | cons c rest =>
      have hG := (h c (List.mem_cons_self _ _)).1
      have hP := (h c (List.mem_cons_self _ _)).2
      unfold stripPremovesAux
      rw [if_neg (by simp [hG, hP])]
      rw [ih rest (fun x hx => h x (List.mem_cons_of_mem _ hx))]

theorem stripPremoves_id (l : List Char) (h : ∀ c ∈ l, c ≠ 'G' ∧ c ≠ 'P') :
    stripPremoves l = l :=
  stripPremovesAux_id l.length l h

theorem findTriple_cons (c : Char) (l : List Char) :
    findTriple (c :: l)
      = if matchTriple (c :: l) then some ((c :: l).take 5) else findTriple l := rfl

theorem findTurn_cons (c : Char) (l : List Char) :
    findTurn (c :: l) = if matchTurn (c :: l) then some c else findTurn l := rfl

theorem findColorList_cons (marker c : Char) (l : List Char) :
    findColorList marker (c :: l)
      = if matchColor marker (c :: l) then
          some ((c :: l.takeWhile isSquareClass).filter (fun x => x ≠ marker))
        else findColorList marker l := rfl

theorem findTriple_skip (pre l : List Char) (h : ∀ c ∈ pre, isWB c = false) :
    findTriple (pre ++ l) = findTriple l := by
  induction pre with
  | nil => rfl
  | cons c pre ih =>
    rw [List.cons_append, findTriple_cons,
      if_neg (by simp [matchTriple, h c (List.mem_cons_self _ _)])]
    exact ih (fun x hx => h x (List.mem_cons_of_mem _ hx))

theorem findTriple_hit (a t e : Char) (rest : List Char)
    (ha : isWB a = true) (ht : isWB t = true) (he : isWB e = true) :
    findTriple (a :: ':' :: t :: ':' :: e :: rest) = some [a, ':', t, ':', e] := by
  rw [findTriple_cons, if_pos (by simp [matchTriple, ha, ht, he])]
  rfl

theorem findTurn_skip (pre l : List Char) (h : ∀ c ∈ pre, isWB c = false) :
    findTurn (pre ++ l) = findTurn l := by
  induction pre with
  | nil => rfl
  | cons c pre ih =>
    rw [List.cons_append, findTurn_cons,
      if_neg (by simp [matchTurn, h c (List.mem_cons_self _ _)])]
    exact ih (fun x hx => h x (List.mem_cons_of_mem _ hx))

theorem findTurn_hit (a : Char) (rest : List Char) (ha : isWB a = true) :
    findTurn (a :: ':' :: rest) = some a := by
  rw [findTurn_cons, if_pos (by simp [matchTurn, ha])]

theorem findColorList_step (marker c : Char) (l : List Char)
    (h : matchColor marker (c :: l) = false) :
    findColorList marker (c :: l) = findColorList marker l := by
  rw [findColorList_cons, if_neg (by simp [h])]

theorem findColorList_skip (marker : Char) (pre l : List Char) (h : ∀ c ∈ pre, c ≠ marker) :
    findColorList marker (pre ++ l) = findColorList marker l := by
  induction pre with
  | nil => rfl
  | cons c pre ih =>
    rw [List.cons_append,
      findColorList_step marker c _ (by simp [matchColor, h c (List.mem_cons_self _ _)])]
    exact ih (fun x hx => h x (List.mem_cons_of_mem _ hx))

theorem findColorList_hit (marker : Char) (rest : List Char)
    (h1 : matchColor marker (marker :: rest) = true) :
    findColorList marker (marker :: rest)
      = some ((marker :: rest.takeWhile isSquareClass).filter (fun x => x ≠ marker)) := by
  rw [findColorList_cons, if_pos h1]

theorem takeWhile_class_append (run : List Char) (stop : Char) (post : List Char)
    (hrun : ∀ c ∈ run, isSquareClass c = true) (hstop : isSquareClass stop = false) :
    (run ++ stop :: post).takeWhile isSquareClass = run := by
  induction run with
  | nil =>
    rw [List.nil_append, List.takeWhile_cons, hstop]
    simp
  | cons c run ih =>
    rw [List.cons_append, List.takeWhile_cons, hrun c (List.mem_cons_self _ _)]
    rw [ih (fun x hx => hrun x (List.mem_cons_of_mem _ hx))]
    simp

theorem filter_ne_marker (marker : Char) (l : List Char) (h : ∀ c ∈ l, c ≠ marker) :
    l.filter (fun x => x ≠ marker) = l := by
  rw [List.filter_eq_self]
  intro c hc
  simp [h c hc]

theorem startsWithL_append (pat t : List Char) : startsWithL pat (pat ++ t) = true := by
  induction pat with
  | nil => rfl
  | cons p ps ih =>
    rw [List.cons_append]
    unfold startsWithL
    simp [ih]

theorem replaceAllAux_id (fuel : Nat) : ∀ (s pat repl : List Char) (p0 : Char)
    (pat' : List Char), pat = p0 :: pat' → (∀ c ∈ s, c ≠ p0) →
    replaceAllAux fuel s pat repl = s := by
  induction fuel with
  | zero => intro s _ _ _ _ _ _; rfl
  | succ fuel ih =>
    intro s pat repl p0 pat' hpat h
    cases s with
    | nil => rfl
    | cons c rest =>
      unfold replaceAllAux
      rw [if_neg (by
        subst hpat
        unfold startsWithL
        simp [Ne.symm (h c (List.mem_cons_self _ _))])]
      rw [ih rest pat repl p0 pat' hpat (fun x hx => h x (List.mem_cons_of_mem _ hx))]

theorem replaceAllAux_single (A : List Char) : ∀ (fuel : Nat) (pat B repl : List Char)
    (p0 : Char) (pat' : List Char), pat = p0 :: pat' →
    (∀ c ∈ A, c ≠ p0) → (∀ c ∈ B, c ≠ p0) →
    (A ++ pat ++ B).length ≤ fuel →
    replaceAllAux fuel (A ++ pat ++ B) pat repl = A ++ repl ++ B := by
  induction A with
  | nil =>
    intro fuel pat B repl p0 pat' hpat hA hB hfuel
    subst hpat
    match fuel, hfuel with
    | fuel + 1, _ =>
      rw [List.nil_append, List.nil_append]
      rw [show (p0 :: pat') ++ B = p0 :: (pat' ++ B) from rfl]
      unfold replaceAllAux
      rw [if_pos (by
        rw [show p0 :: (pat' ++ B) = (p0 :: pat') ++ B from rfl]
        exact startsWithL_append _ _)]
      rw [show p0 :: (pat' ++ B) = (p0 :: pat') ++ B from rfl]
      rw [List.drop_left]
      rw [replaceAllAux_id fuel B (p0 :: pat') repl p0 pat' rfl hB]
  | cons a A ih =>
    intro fuel pat B repl p0 pat' hpat hA hB hfuel
    match fuel, hfuel with
    | fuel + 1, hf =>
      rw [List.cons_append, List.cons_append]
      unfold replaceAllAux
      rw [if_neg (by
        subst hpat
        unfold startsWithL
        simp [Ne.symm (hA a (List.mem_cons_self _ _))])]
      rw [ih fuel pat B repl p0 pat' hpat
        (fun x hx => hA x (List.mem_cons_of_mem _ hx)) hB
        (by
          simp only [List.cons_append, List.length_cons] at hf
          omega)]
      simp

theorem replaceAll_single (A pat B repl : List Char) (p0 : Char) (pat' : List Char)
    (hpat : pat = p0 :: pat') (hA : ∀ c ∈ A, c ≠ p0) (hB : ∀ c ∈ B, c ≠ p0) :
    replaceAll (A ++ pat ++ B) pat repl = A ++ repl ++ B := by
  unfold replaceAll
  rw [if_neg (by simp [hpat])]
  exact replaceAllAux_single A _ pat B repl p0 pat' hpat hA hB (le_refl _)

theorem splitOnChar_cons (sep c : Char) (l : List Char) :
    splitOnChar sep (c :: l)
      = if c = sep then [] :: splitOnChar sep l
        else
          match splitOnChar sep l with
          | [] => [[c]]
          | g :: gs => (c :: g) :: gs := rfl

theorem splitOnChar_ne_nil (sep : Char) (l : List Char) : splitOnChar sep l ≠ [] := by
  cases l with
  | nil => simp [splitOnChar]
  | cons c rest =>
    rw [splitOnChar_cons]
    by_cases h : c = sep
    · rw [if_pos h]
      simp
    · rw [if_neg h]
      split <;> simp

theorem splitOnChar_no_sep (sep : Char) (l : List Char) (h : ∀ c ∈ l, c ≠ sep) :
    splitOnChar sep l = [l] := by
  induction l with
  | nil => rfl
  | cons c rest ih =>
    rw [splitOnChar_cons, if_neg (h c (List.mem_cons_self _ _)),
      ih (fun x hx => h x (List.mem_cons_of_mem _ hx))]

theorem splitOnChar_append_sep (sep : Char) (e t : List Char) (he : ∀ c ∈ e, c ≠ sep) :
    splitOnChar sep (e ++ sep :: t) = e :: splitOnChar sep t := by
  induction e with
  | nil =>
    rw [List.nil_append, splitOnChar_cons, if_pos rfl]
  | cons c e ih =>
    rw [List.cons_append, splitOnChar_cons, if_neg (he c (List.mem_cons_self _ _)),
      ih (fun x hx => he x (List.mem_cons_of_mem _ hx))]

theorem splitOnChar_joinComma (es : List (List Char)) (hne : es ≠ [])
    (hsep : ∀ e ∈ es, ∀ c ∈ e, c ≠ ',') :
    splitOnChar ',' (joinComma es) = es := by
  induction es with
  | nil => exact absurd rfl hne
  | cons e rest ih =>
    cases rest with
    | nil => exact splitOnChar_no_sep ',' e (hsep e (List.mem_cons_self _ _))
    | cons e2 r2 =>
      rw [show joinComma (e :: e2 :: r2) = e ++ ',' :: joinComma (e2 :: r2) from rfl]
      rw [splitOnChar_append_sep ',' e _ (hsep e (List.mem_cons_self _ _))]
      rw [ih (by simp) (fun x hx => hsep x (List.mem_cons_of_mem _ hx))]

theorem length_foldl_set (S : List Nat) (g : Nat → Int) : ∀ (buf : List Int),
    (S.foldl (fun b sq => b.set sq (g sq)) buf).length = buf.length := by
  induction S with
  | nil => intro buf; rfl
  | cons sq S ih =>
    intro buf
    rw [List.foldl_cons, ih, List.length_set]

theorem getD_foldl_set (S : List Nat) (g : Nat → Int) : ∀ (buf : List Int),
    (∀ sq ∈ S, sq < buf.length) → ∀ i,
    (S.foldl (fun b sq => b.set sq (g sq)) buf).getD i 0
      = if i ∈ S then g i else buf.getD i 0 := by
  induction S with
  | nil => intro buf _ i; simp
  | cons sq S ih =>
    intro buf hS i
    rw [List.foldl_cons,
      ih _ (fun x hx => by rw [List.length_set]; exact hS x (List.mem_cons_of_mem _ hx)) i]
    by_cases hin : i ∈ S
    · simp [hin]
    · by_cases heq : i = sq
      · subst heq
        rw [if_neg hin, if_pos (List.mem_cons_self _ _),
          getD_set_self' 0 _ _ _ (hS i (List.mem_cons_self _ _))]
      · rw [if_neg hin, if_neg (by simp [heq, hin]),
          getD_set_of_ne 0 _ _ (Ne.symm heq)]

theorem mem_whereNeg (pos : List Int) (i : Nat) :
    i ∈ whereNeg pos ↔ i < pos.length ∧ pos.getD i 0 < 0 := by
  unfold whereNeg
  rw [List.mem_filter, List.mem_range]
  simp

theorem mem_wherePos (pos : List Int) (i : Nat) :
    i ∈ wherePos pos ↔ i < pos.length ∧ 0 < pos.getD i 0 := by
  unfold wherePos
  rw [List.mem_filter, List.mem_range]
  simp

theorem whereNeg_sorted (pos : List Int) : List.Pairwise (· < ·) (whereNeg pos) :=
  List.Pairwise.sublist (List.filter_sublist _) (List.pairwise_lt_range _)

theorem wherePos_sorted (pos : List Int) : List.Pairwise (· < ·) (wherePos pos) :=
  List.Pairwise.sublist (List.filter_sublist _) (List.pairwise_lt_range _)

theorem populateFromList_entries (pos : List Int) (P : Int → Prop) [DecidablePred P]
    (cv : Int) : ∀ (S : List Nat) (buf : List Int), buf.length = pos.length →
    (∀ sq ∈ S, sq < pos.length) →
    populateFromList buf
        (S.map (fun sq => (if P (pos.getD sq 0) then ['K'] else []) ++ natDigits (sq + 1))) cv
      = (S.foldl (fun b sq => b.set sq (if P (pos.getD sq 0) then cv * figKING else cv)) buf,
         true) := by
  intro S
  induction S with
  | nil => intro buf _ _; rfl
  | cons sq S ih =>
    intro buf hlen hS
    have hsqb : sq < buf.length := by rw [hlen]; exact hS sq (List.mem_cons_self _ _)
    rw [List.map_cons, List.foldl_cons]
    by_cases hk : P (pos.getD sq 0)
    · rw [if_pos hk, if_pos hk]
      rw [show ((['K'] ++ natDigits (sq + 1) : List Char)) = 'K' :: natDigits (sq + 1) from rfl]
      unfold populateFromList
      rw [if_neg (by
        simp only [Bool.and_eq_true, not_and]
        intro hdig
        exfalso
        unfold isdigitL at hdig
        rw [Bool.and_eq_true, List.all_eq_true] at hdig
        have := hdig.2 'K' (List.mem_cons_self _ _)
        simp [isDigitChar] at this)]
      rw [if_pos (by
        rw [show (('K' :: natDigits (sq + 1)).tail) = natDigits (sq + 1) from rfl,
          show (('K' :: natDigits (sq + 1)).headD ' ') = 'K' from rfl, parseNat_natDigits]
        simp only [Bool.and_eq_true, decide_eq_true_eq, isdigitL_natDigits, and_true,
          true_and]
        omega)]
      rw [show (('K' :: natDigits (sq + 1)).tail) = natDigits (sq + 1) from rfl,
        parseNat_natDigits, show sq + 1 - 1 = sq from rfl]
      exact ih (buf.set sq (cv * figKING)) (by rw [List.length_set]; exact hlen)
        (fun x hx => hS x (List.mem_cons_of_mem _ hx))
    · rw [if_neg hk, if_neg hk]
      rw [show (([] ++ natDigits (sq + 1) : List Char)) = natDigits (sq + 1) from rfl]
      unfold populateFromList
      rw [if_pos (by
        rw [parseNat_natDigits]
        simp only [Bool.and_eq_true, decide_eq_true_eq, isdigitL_natDigits, true_and]
        omega)]
      rw [parseNat_natDigits, show sq + 1 - 1 = sq from rfl]
      exact ih (buf.set sq cv) (by rw [List.length_set]; exact hlen)
        (fun x hx => hS x (List.mem_cons_of_mem _ hx))

theorem map_id_of_eq {l : List Char} (f : Char → Char) (h : ∀ c ∈ l, f c = c) :
    l.map f = l := by
  induction l with
  | nil => rfl
  | cons c rest ih =>
    rw [List.map_cons, h c (List.mem_cons_self _ _),
      ih (fun x hx => h x (List.mem_cons_of_mem _ hx))]

theorem fen_form (b : Board) :
    fen b = '[' :: 'F' :: 'E' :: 'N' :: ' ' :: '"' :: 'W' :: ':'
      :: colorRepr b.turn :: ':' :: 'W'
      :: (joinComma ((whereNeg b.pos).map (fenItemNeg b.pos))
          ++ ':' :: 'B' :: (joinComma ((wherePos b.pos).map (fenItemPos b.pos))
          ++ ['"', ']'])) := by
  unfold fen
  simp [List.cons_append, List.append_assoc]

theorem fen_list_chars (b : Board) :
    (∀ c ∈ joinComma ((whereNeg b.pos).map (fenItemNeg b.pos)), fenListChar c)
    ∧ (∀ c ∈ joinComma ((wherePos b.pos).map (fenItemPos b.pos)), fenListChar c) := by
  constructor
  · refine fenJoin_chars _ ?_
    intro e he c hce
    rcases List.mem_map.mp he with ⟨sq, _, rfl⟩
    exact fenItemNeg_chars b.pos sq c hce
  · refine fenJoin_chars _ ?_
    intro e he c hce
    rcases List.mem_map.mp he with ⟨sq, _, rfl⟩
    exact fenItemPos_chars b.pos sq c hce

theorem map_toUpper_fen (b : Board) : (fen b).map Char.toUpper = fen b := by
  have hw := (fen_list_chars b).1
  have hbj := (fen_list_chars b).2
  rw [fen_form]
  cases hturn : b.turn <;>
  · simp only [List.map_cons, List.map_append, colorRepr]
    rw [map_id_of_eq Char.toUpper (fun c hc => (fenListChar_facts c (hw c hc)).1),
      map_id_of_eq Char.toUpper (fun c hc => (fenListChar_facts c (hbj c hc)).1)]
    rfl

theorem fen_no_gp (b : Board) : ∀ c ∈ fen b, c ≠ 'G' ∧ c ≠ 'P' := by
  have hw := (fen_list_chars b).1
  have hbj := (fen_list_chars b).2
  intro c hc
  rw [fen_form] at hc
  simp only [List.mem_cons, List.mem_append, List.mem_singleton, List.not_mem_nil,
    or_false] at hc
  rcases hc with rfl | rfl | rfl | rfl | rfl | rfl | rfl | rfl | rfl | rfl | rfl
    | hcw | rfl | rfl | hcb | rfl | rfl
  · exact (by decide)
  · exact (by decide)
  · exact (by decide)
  · exact (by decide)
  · exact (by decide)
  · exact (by decide)
  · exact (by decide)
  · exact (by decide)
  · cases b.turn <;> exact (by decide)
  · exact (by decide)
  · exact (by decide)
  · have h := fenListChar_facts c (hw c hcw)
    exact ⟨h.2.2.2.1, h.2.2.2.2.1⟩
  · exact (by decide)
  · exact (by decide)
  · have h := fenListChar_facts c (hbj c hcb)
    exact ⟨h.2.2.2.1, h.2.2.2.2.1⟩
  · exact (by decide)
  · exact (by decide)

theorem fenPreprocess_fen (b : Board) :
    fenPreprocess (fen b)
      = '[' :: 'F' :: 'E' :: 'N' :: ' ' :: '"' :: colorRepr b.turn :: ':' :: 'W'
        :: (joinComma ((whereNeg b.pos).map (fenItemNeg b.pos))
            ++ ':' :: 'B' :: (joinComma ((wherePos b.pos).map (fenItemPos b.pos))
            ++ ['"', ']'])) := by
  have hwj := (fen_list_chars b).1
  have hbj := (fen_list_chars b).2
  have hwb : isWB (colorRepr b.turn) = true := by cases b.turn <;> decide
  have hB : ∀ c ∈ (joinComma ((whereNeg b.pos).map (fenItemNeg b.pos))
      ++ ':' :: 'B' :: (joinComma ((wherePos b.pos).map (fenItemPos b.pos)) ++ ['"', ']'])),
      c ≠ 'W' := by
    intro c hc
    simp only [List.mem_append, List.mem_cons, List.mem_singleton, List.not_mem_nil,
      or_false] at hc
    rcases hc with hcw | rfl | rfl | hcb | rfl | rfl
    · exact (fenListChar_facts c (hwj c hcw)).2.2.2.2.2.2.2.1
    · exact (by decide)
    · exact (by decide)
    · exact (fenListChar_facts c (hbj c hcb)).2.2.2.2.2.2.2.1
    · exact (by decide)
    · exact (by decide)
  show (match findTriple (stripPremoves ((fen b).map Char.toUpper)) with
    | some p => replaceAll (stripPremoves ((fen b).map Char.toUpper)) p (p.drop 2)
    | none => stripPremoves ((fen b).map Char.toUpper)) = _
  rw [map_toUpper_fen b, stripPremoves_id (fen b) (fen_no_gp b)]
  rw [show fen b = ['[', 'F', 'E', 'N', ' ', '"']
      ++ ('W' :: ':' :: colorRepr b.turn :: ':' :: 'W'
        :: (joinComma ((whereNeg b.pos).map (fenItemNeg b.pos))
            ++ ':' :: 'B' :: (joinComma ((wherePos b.pos).map (fenItemPos b.pos))
            ++ ['"', ']']))) from by rw [fen_form]; rfl]
  rw [findTriple_skip ['[', 'F', 'E', 'N', ' ', '"'] _ (by decide)]
  rw [findTriple_hit 'W' (colorRepr b.turn) 'W' _ (by decide) hwb (by decide)]
  show replaceAll (['[', 'F', 'E', 'N', ' ', '"']
      ++ ('W' :: ':' :: colorRepr b.turn :: ':' :: 'W'
        :: (joinComma ((whereNeg b.pos).map (fenItemNeg b.pos))
            ++ ':' :: 'B' :: (joinComma ((wherePos b.pos).map (fenItemPos b.pos))
            ++ ['"', ']']))))
      ['W', ':', colorRepr b.turn, ':', 'W']
      (['W', ':', colorRepr b.turn, ':', 'W'].drop 2) = _
  rw [show (['[', 'F', 'E', 'N', ' ', '"'] : List Char)
      ++ ('W' :: ':' :: colorRepr b.turn :: ':' :: 'W'
        :: (joinComma ((whereNeg b.pos).map (fenItemNeg b.pos))
            ++ ':' :: 'B' :: (joinComma ((wherePos b.pos).map (fenItemPos b.pos))
            ++ ['"', ']'])))
      = ['[', 'F', 'E', 'N', ' ', '"'] ++ ['W', ':', colorRepr b.turn, ':', 'W']
        ++ (joinComma ((whereNeg b.pos).map (fenItemNeg b.pos))
          ++ ':' :: 'B' :: (joinComma ((wherePos b.pos).map (fenItemPos b.pos))
          ++ ['"', ']'])) from rfl]
  rw [replaceAll_single ['[', 'F', 'E', 'N', ' ', '"'] ['W', ':', colorRepr b.turn, ':', 'W']
      _ _ 'W' [':', colorRepr b.turn, ':', 'W'] rfl (by decide) hB]
  rfl

theorem findTurn_fen (b : Board) :
    findTurn (fenPreprocess (fen b)) = some (colorRepr b.turn) := by
  rw [fenPreprocess_fen]
  rw [show ('[' :: 'F' :: 'E' :: 'N' :: ' ' :: '"' :: colorRepr b.turn :: ':' :: 'W'
      :: (joinComma ((whereNeg b.pos).map (fenItemNeg b.pos))
          ++ ':' :: 'B' :: (joinComma ((wherePos b.pos).map (fenItemPos b.pos))
          ++ ['"', ']'])))
      = ['[', 'F', 'E', 'N', ' ', '"']
        ++ (colorRepr b.turn :: ':' :: ('W'
          :: (joinComma ((whereNeg b.pos).map (fenItemNeg b.pos))
          ++ ':' :: 'B' :: (joinComma ((wherePos b.pos).map (fenItemPos b.pos))
          ++ ['"', ']'])))) from rfl]
  rw [findTurn_skip _ _ (by decide)]
  exact findTurn_hit _ _ (by cases b.turn <;> decide)

theorem whiteJoin_ne_nil (b : Board) (hne : whereNeg b.pos ≠ []) :
    joinComma ((whereNeg b.pos).map (fenItemNeg b.pos)) ≠ [] := by
  refine joinComma_ne_nil _ (by simpa using hne) ?_
  intro e he
  rcases List.mem_map.mp he with ⟨sq, _, rfl⟩
  exact fenItemNeg_ne_nil b.pos sq

theorem blackJoin_ne_nil (b : Board) (hne : wherePos b.pos ≠ []) :
    joinComma ((wherePos b.pos).map (fenItemPos b.pos)) ≠ [] := by
  refine joinComma_ne_nil _ (by simpa using hne) ?_
  intro e he
  rcases List.mem_map.mp he with ⟨sq, _, rfl⟩
  exact fenItemPos_ne_nil b.pos sq

theorem findColorList_W_fen (b : Board) (hne : whereNeg b.pos ≠ []) :
    findColorList 'W' (fenPreprocess (fen b))
      = some (joinComma ((whereNeg b.pos).map (fenItemNeg b.pos))) := by
  have hwj := (fen_list_chars b).1
  have hwne := whiteJoin_ne_nil b hne
  rw [fenPreprocess_fen]
  rw [show ('[' :: 'F' :: 'E' :: 'N' :: ' ' :: '"' :: colorRepr b.turn :: ':' :: 'W'
      :: (joinComma ((whereNeg b.pos).map (fenItemNeg b.pos))
          ++ ':' :: 'B' :: (joinComma ((wherePos b.pos).map (fenItemPos b.pos))
          ++ ['"', ']'])))
      = ['[', 'F', 'E', 'N', ' ', '"']
        ++ (colorRepr b.turn :: ':' :: 'W'
          :: (joinComma ((whereNeg b.pos).map (fenItemNeg b.pos))
          ++ ':' :: 'B' :: (joinComma ((wherePos b.pos).map (fenItemPos b.pos))
          ++ ['"', ']']))) from rfl]
  rw [findColorList_skip 'W' _ _ (by decide)]
  rw [findColorList_step 'W' (colorRepr b.turn) _ (by
    simp [matchColor, isSquareClass, isDigitChar])]
  rw [findColorList_step 'W' ':' _ (by
    simp [matchColor])]
  obtain ⟨c0, wrest, hw0⟩ : ∃ c0 wrest,
      joinComma ((whereNeg b.pos).map (fenItemNeg b.pos)) = c0 :: wrest := by
    cases hj : joinComma ((whereNeg b.pos).map (fenItemNeg b.pos)) with
    | nil => exact absurd hj hwne
    | cons c0 wrest => exact ⟨c0, wrest, rfl⟩
  rw [hw0]
  rw [findColorList_hit 'W' _ (by
    have hc0 : isSquareClass c0 = true :=
      (fenListChar_facts c0 (hwj c0 (by rw [hw0]; exact List.mem_cons_self _ _))).2.1
    simp [matchColor, hc0])]
  have htw : List.takeWhile isSquareClass
      ((c0 :: wrest) ++ ':' :: 'B'
        :: (joinComma ((wherePos b.pos).map (fenItemPos b.pos)) ++ ['"', ']']))
      = c0 :: wrest :=
    takeWhile_class_append (c0 :: wrest) ':'
      ('B' :: (joinComma ((wherePos b.pos).map (fenItemPos b.pos)) ++ ['"', ']']))
      (fun c hc => (fenListChar_facts c (hwj c (by rw [hw0]; exact hc))).2.1) (by decide)
  rw [htw]
  have hfil : List.filter (fun x => decide (x ≠ 'W')) ('W' :: c0 :: wrest) = c0 :: wrest := by
    rw [show List.filter (fun x => decide (x ≠ 'W')) ('W' :: c0 :: wrest)
        = List.filter (fun x => decide (x ≠ 'W')) (c0 :: wrest) from by simp]
    exact filter_ne_marker 'W' _ (fun c hc =>
      (fenListChar_facts c (hwj c (by rw [hw0]; exact hc))).2.2.2.2.2.2.2.1)
  rw [hfil]

theorem findColorList_B_fen (b : Board) (hne : wherePos b.pos ≠ []) :
    findColorList 'B' (fenPreprocess (fen b))
      = some (joinComma ((wherePos b.pos).map (fenItemPos b.pos))) := by
  have hwj := (fen_list_chars b).1
  have hbj := (fen_list_chars b).2
  have hbne := blackJoin_ne_nil b hne
  rw [fenPreprocess_fen]
  rw [show ('[' :: 'F' :: 'E' :: 'N' :: ' ' :: '"' :: colorRepr b.turn :: ':' :: 'W'
      :: (joinComma ((whereNeg b.pos).map (fenItemNeg b.pos))
          ++ ':' :: 'B' :: (joinComma ((wherePos b.pos).map (fenItemPos b.pos))
          ++ ['"', ']'])))
      = ['[', 'F', 'E', 'N', ' ', '"']
        ++ (colorRepr b.turn :: ':' :: 'W'
          :: (joinComma ((whereNeg b.pos).map (fenItemNeg b.pos))
          ++ ':' :: 'B' :: (joinComma ((wherePos b.pos).map (fenItemPos b.pos))
          ++ ['"', ']']))) from rfl]
  rw [findColorList_skip 'B' _ _ (by decide)]
  rw [findColorList_step 'B' (colorRepr b.turn) _ (by
    simp [matchColor, isSquareClass, isDigitChar])]
  rw [show (':' :: 'W'
      :: (joinComma ((whereNeg b.pos).map (fenItemNeg b.pos))
          ++ ':' :: 'B' :: (joinComma ((wherePos b.pos).map (fenItemPos b.pos))
          ++ ['"', ']'])))
      = (':' :: 'W' :: joinComma ((whereNeg b.pos).map (fenItemNeg b.pos)))
        ++ (':' :: 'B' :: (joinComma ((wherePos b.pos).map (fenItemPos b.pos))
          ++ ['"', ']'])) from rfl]
  rw [findColorList_skip 'B' _ _ (by
    intro c hc
    rcases List.mem_cons.mp hc with rfl | hc2
    · exact (by decide)
    · rcases List.mem_cons.mp hc2 with rfl | hc3
      · exact (by decide)
      · exact (fenListChar_facts c (hwj c hc3)).2.2.2.2.2.2.2.2)]
  rw [findColorList_step 'B' ':' _ (by simp [matchColor])]
  obtain ⟨c0, brest, hb0⟩ : ∃ c0 brest,
      joinComma ((wherePos b.pos).map (fenItemPos b.pos)) = c0 :: brest := by
    cases hj : joinComma ((wherePos b.pos).map (fenItemPos b.pos)) with
    | nil => exact absurd hj hbne
    | cons c0 brest => exact ⟨c0, brest, rfl⟩
  rw [hb0]
  rw [findColorList_hit 'B' _ (by
    have hc0 : isSquareClass c0 = true :=
      (fenListChar_facts c0 (hbj c0 (by rw [hb0]; exact List.mem_cons_self _ _))).2.1
    simp [matchColor, hc0])]
  have htw : List.takeWhile isSquareClass ((c0 :: brest) ++ '"' :: [']'])
      = c0 :: brest :=
    takeWhile_class_append (c0 :: brest) '"' [']']
      (fun c hc => (fenListChar_facts c (hbj c (by rw [hb0]; exact hc))).2.1) (by decide)
  rw [htw]
  have hfil : List.filter (fun x => decide (x ≠ 'B')) ('B' :: c0 :: brest) = c0 :: brest := by
    rw [show List.filter (fun x => decide (x ≠ 'B')) ('B' :: c0 :: brest)
        = List.filter (fun x => decide (x ≠ 'B')) (c0 :: brest) from by simp]
    exact filter_ne_marker 'B' _ (fun c hc =>
      (fenListChar_facts c (hbj c (by rw [hb0]; exact hc))).2.2.2.2.2.2.2.2)
  rw [hfil]

theorem getD_mem_of_lt (l : List Int) (i : Nat) (h : i < l.length) : l.getD i 0 ∈ l := by
  rw [List.getD_eq_getElem _ _ h]
  exact List.getElem_mem _

theorem getD_replicate_zero (n i : Nat) : (List.replicate n (0 : Int)).getD i 0 = 0 := by
  by_cases h : i < n
  · rw [List.getD_eq_getElem _ _ (by simpa using h)]
    exact List.getElem_replicate _ _
  · rw [List.getD_eq_getElem?_getD, List.getElem?_eq_none (by simpa using not_lt.mp h)]
    rfl

theorem decodedBuffer_fen (b : Board) (cs : ClassState)
    (hlen : cs.startingPosition.length = b.pos.length)
    (hwne : whereNeg b.pos ≠ []) (hbne : wherePos b.pos ≠ []) :
    decodedBuffer cs (joinComma ((whereNeg b.pos).map (fenItemNeg b.pos)))
        (joinComma ((wherePos b.pos).map (fenItemPos b.pos)))
      = ((wherePos b.pos).foldl (fun bf sq => bf.set sq
            (if 1 < b.pos.getD sq 0 then Color.Black.val * figKING else Color.Black.val))
          ((whereNeg b.pos).foldl (fun bf sq => bf.set sq
            (if b.pos.getD sq 0 < -1 then Color.White.val * figKING else Color.White.val))
            (List.replicate cs.startingPosition.length 0)),
         true) := by
  have hsW : splitOnChar ',' (joinComma ((whereNeg b.pos).map (fenItemNeg b.pos)))
      = (whereNeg b.pos).map (fenItemNeg b.pos) := by
    refine splitOnChar_joinComma _ (by simpa using hwne) ?_
    intro e he c hc
    rcases List.mem_map.mp he with ⟨sq, _, rfl⟩
    rcases fenItemNeg_chars b.pos sq c hc with rfl | ⟨d, hd, rfl⟩
    · exact (by decide)
    · exact (digitChar_facts d hd).2.2.2.2.2.2.1
  have hsB : splitOnChar ',' (joinComma ((wherePos b.pos).map (fenItemPos b.pos)))
      = (wherePos b.pos).map (fenItemPos b.pos) := by
    refine splitOnChar_joinComma _ (by simpa using hbne) ?_
    intro e he c hc
    rcases List.mem_map.mp he with ⟨sq, _, rfl⟩
    rcases fenItemPos_chars b.pos sq c hc with rfl | ⟨d, hd, rfl⟩
    · exact (by decide)
    · exact (digitChar_facts d hd).2.2.2.2.2.2.1
  have hpW : populateFromList (List.replicate cs.startingPosition.length 0)
      ((whereNeg b.pos).map (fenItemNeg b.pos)) Color.White.val
      = ((whereNeg b.pos).foldl (fun bf sq => bf.set sq
          (if b.pos.getD sq 0 < -1 then Color.White.val * figKING else Color.White.val))
          (List.replicate cs.startingPosition.length 0), true) := by
    rw [show (whereNeg b.pos).map (fenItemNeg b.pos)
        = (whereNeg b.pos).map (fun sq =>
            (if b.pos.getD sq 0 < -1 then ['K'] else []) ++ natDigits (sq + 1)) from rfl]
    exact populateFromList_entries b.pos (fun v => v < -1) Color.White.val (whereNeg b.pos)
      _ (by simp [hlen]) (fun sq hsq => ((mem_whereNeg b.pos sq).mp hsq).1)
  have hpB : populateFromList
      ((whereNeg b.pos).foldl (fun bf sq => bf.set sq
        (if b.pos.getD sq 0 < -1 then Color.White.val * figKING else Color.White.val))
        (List.replicate cs.startingPosition.length 0))
      ((wherePos b.pos).map (fenItemPos b.pos)) Color.Black.val
      = ((wherePos b.pos).foldl (fun bf sq => bf.set sq
          (if 1 < b.pos.getD sq 0 then Color.Black.val * figKING else Color.Black.val))
          ((whereNeg b.pos).foldl (fun bf sq => bf.set sq
            (if b.pos.getD sq 0 < -1 then Color.White.val * figKING else Color.White.val))
            (List.replicate cs.startingPosition.length 0)), true) := by
    rw [show (wherePos b.pos).map (fenItemPos b.pos)
        = (wherePos b.pos).map (fun sq =>
            (if 1 < b.pos.getD sq 0 then ['K'] else []) ++ natDigits (sq + 1)) from rfl]
    exact populateFromList_entries b.pos (fun v => 1 < v) Color.Black.val (wherePos b.pos)
      _ (by simp [length_foldl_set, hlen]) (fun sq hsq => ((mem_wherePos b.pos sq).mp hsq).1)
  show (if (populateFromList (List.replicate cs.startingPosition.length 0)
        (splitOnChar ',' (joinComma ((whereNeg b.pos).map (fenItemNeg b.pos))))
        Color.White.val).2
      then populateFromList
        (populateFromList (List.replicate cs.startingPosition.length 0)
          (splitOnChar ',' (joinComma ((whereNeg b.pos).map (fenItemNeg b.pos))))
          Color.White.val).1
        (splitOnChar ',' (joinComma ((wherePos b.pos).map (fenItemPos b.pos))))
        Color.Black.val
      else ((populateFromList (List.replicate cs.startingPosition.length 0)
        (splitOnChar ',' (joinComma ((whereNeg b.pos).map (fenItemNeg b.pos))))
        Color.White.val).1, false)) = _
  rw [hsW, hsB, hpW]
  simp only []
  rw [if_pos trivial]
  exact hpB

theorem decoded_eq_pos (b : Board) (cs : ClassState)
    (hlen : cs.startingPosition.length = b.pos.length)
    (hvalid : ∀ v ∈ b.pos, v = figEMPTY ∨ v = figWHITE_MAN ∨ v = figBLACK_MAN
      ∨ v = figWHITE_KING ∨ v = figBLACK_KING) :
    (wherePos b.pos).foldl (fun bf sq => bf.set sq
        (if 1 < b.pos.getD sq 0 then Color.Black.val * figKING else Color.Black.val))
      ((whereNeg b.pos).foldl (fun bf sq => bf.set sq
        (if b.pos.getD sq 0 < -1 then Color.White.val * figKING else Color.White.val))
        (List.replicate cs.startingPosition.length 0))
      = b.pos := by
  have hlen1 : ((whereNeg b.pos).foldl (fun bf sq => bf.set sq
      (if b.pos.getD sq 0 < -1 then Color.White.val * figKING else Color.White.val))
      (List.replicate cs.startingPosition.length 0)).length = b.pos.length := by
    rw [length_foldl_set, List.length_replicate, hlen]
  apply ext_getD
  · rw [length_foldl_set, hlen1]
  · intro i
    rw [getD_foldl_set _ _ _ (fun sq hsq => by
        rw [hlen1]; exact ((mem_wherePos b.pos sq).mp hsq).1) i]
    rw [getD_foldl_set _ _ _ (fun sq hsq => by
        rw [List.length_replicate, hlen]; exact ((mem_whereNeg b.pos sq).mp hsq).1) i]
    by_cases hp : i ∈ wherePos b.pos
    · rw [if_pos hp]
      obtain ⟨hilt, hipos⟩ := (mem_wherePos _ _).mp hp
      rcases hvalid _ (getD_mem_of_lt b.pos i hilt) with h | h | h | h | h
      · rw [h] at hipos; exact absurd hipos (by decide)
      · rw [h] at hipos; exact absurd hipos (by decide)
      · rw [h]; decide
      · rw [h] at hipos; exact absurd hipos (by decide)
      · rw [h]; decide
    · rw [if_neg hp]
      by_cases hn : i ∈ whereNeg b.pos
      · rw [if_pos hn]
        obtain ⟨hilt, hineg⟩ := (mem_whereNeg _ _).mp hn
        rcases hvalid _ (getD_mem_of_lt b.pos i hilt) with h | h | h | h | h
        · rw [h] at hineg; exact absurd hineg (by decide)
        · rw [h]; decide
        · rw [h] at hineg; exact absurd hineg (by decide)
        · rw [h]; decide
        · rw [h] at hineg; exact absurd hineg (by decide)
      · rw [if_neg hn, getD_replicate_zero]
        by_cases hilt : i < b.pos.length
        · have h1 : ¬ 0 < b.pos.getD i 0 := fun hgt => hp ((mem_wherePos _ _).mpr ⟨hilt, hgt⟩)
          have h2 : ¬ b.pos.getD i 0 < 0 := fun hlt => hn ((mem_whereNeg _ _).mpr ⟨hilt, hlt⟩)
          omega
        · rw [List.getD_eq_getElem?_getD,
            List.getElem?_eq_none (by simpa using not_lt.mp hilt)]
          rfl

/-- C4 counterexample: a board with at least one piece but pieces of one
color only fails to round-trip: its fen string has an empty white
segment, the `W[0-9K,]+` regex never matches, and `from_fen` raises
`AttributeError` (modelled as `none`) instead of returning a Board. -/
theorem fen_roundtrip_fails_one_color :
    ((⟨[1, 0], Color.White, [], 2⟩ : Board).pos.any (fun v => v ≠ 0)) = true
    ∧ from_fen ⟨[0, 0], Color.White⟩ (fen ⟨[1, 0], Color.White, [], 2⟩) = none := by
  constructor
  · decide
  · decide

/-- C4 amended: for every board whose cell values respect the piece
encoding and whose buffer length is a valid geometry, with at least one
white piece and at least one black piece, decoding its fen string with a
class whose default buffer has the board's length yields a board with
exactly the original position buffer (hence the same multiset of
(square, color, kind) assignments) and the original side to move. -/
theorem fen_roundtrip (b : Board) (cs : ClassState) (n : Nat)
    (hgeo : b.pos.length * 2 = n * n)
    (hlen : cs.startingPosition.length = b.pos.length)
    (hvalid : ∀ v ∈ b.pos, v = figEMPTY ∨ v = figWHITE_MAN ∨ v = figBLACK_MAN
      ∨ v = figWHITE_KING ∨ v = figBLACK_KING)
    (hwhite : ∃ i, i < b.pos.length ∧ b.pos.getD i 0 < 0)
    (hblack : ∃ i, i < b.pos.length ∧ 0 < b.pos.getD i 0) :
    ∃ cs' : ClassState, ∃ b' : Board,
      from_fen cs (fen b) = some (cs', b') ∧ b'.pos = b.pos ∧ b'.turn = b.turn := by
  have hwne : whereNeg b.pos ≠ [] := by
    obtain ⟨i, hi, hneg⟩ := hwhite
    intro h
    have hmem := (mem_whereNeg b.pos i).mpr ⟨hi, hneg⟩
    rw [h] at hmem
    cases hmem
  have hbne : wherePos b.pos ≠ [] := by
    obtain ⟨i, hi, hpos⟩ := hblack
    intro h
    have hmem := (mem_wherePos b.pos i).mpr ⟨hi, hpos⟩
    rw [h] at hmem
    cases hmem
  refine ⟨⟨b.pos, if colorRepr b.turn = 'W' then Color.White else Color.Black⟩,
    ⟨b.pos, if colorRepr b.turn = 'W' then Color.White else Color.Black, [], n⟩,
    ?_, rfl, by cases b.turn <;> rfl⟩
  unfold from_fen
  rw [findTurn_fen b, findColorList_W_fen b hwne, findColorList_B_fen b hbne]
  show fenAssemble cs (colorRepr b.turn)
      (joinComma ((whereNeg b.pos).map (fenItemNeg b.pos)))
      (joinComma ((wherePos b.pos).map (fenItemPos b.pos))) = _
  unfold fenAssemble
  rw [if_neg (fun hand => whiteJoin_ne_nil b hwne hand.1)]
  rw [decodedBuffer_fen b cs hlen hwne hbne]
  show (match boardInit ((wherePos b.pos).foldl (fun bf sq => bf.set sq
        (if 1 < b.pos.getD sq 0 then Color.Black.val * figKING else Color.Black.val))
      ((whereNeg b.pos).foldl (fun bf sq => bf.set sq
        (if b.pos.getD sq 0 < -1 then Color.White.val * figKING else Color.White.val))
        (List.replicate cs.startingPosition.length 0)))
      (if colorRepr b.turn = 'W' then Color.White else Color.Black) with
    | some brd => some ((⟨(wherePos b.pos).foldl (fun bf sq => bf.set sq
          (if 1 < b.pos.getD sq 0 then Color.Black.val * figKING else Color.Black.val))
        ((whereNeg b.pos).foldl (fun bf sq => bf.set sq
          (if b.pos.getD sq 0 < -1 then Color.White.val * figKING else Color.White.val))
          (List.replicate cs.startingPosition.length 0)),
        if colorRepr b.turn = 'W' then Color.White else Color.Black⟩ : ClassState), brd)
    | none => none) = _
  rw [decoded_eq_pos b cs hlen hvalid]
  rw [boardInit_of_sq b.pos _ n hgeo]

theorem fen_roundtrip_witness :
    ∃ cs' : ClassState, ∃ b' : Board,
      from_fen ⟨[0, 0], Color.White⟩ (fen ⟨[-1, 1], Color.White, [], 2⟩) = some (cs', b')
      ∧ b'.pos = (⟨[-1, 1], Color.White, [], 2⟩ : Board).pos
      ∧ b'.turn = (⟨[-1, 1], Color.White, [], 2⟩ : Board).turn :=
  fen_roundtrip ⟨[-1, 1], Color.White, [], 2⟩ ⟨[0, 0], Color.White⟩ 2
    (by decide) (by decide) (by decide)
    ⟨0, by decide, by decide⟩ ⟨1, by decide, by decide⟩

/-- C3 amended: the fen payload consists of exactly four colon-separated
fields, in order: the literal artifact `W`; the turn token (`W` when the
side to move is white, `B` when black); `W` followed by the comma-joined
ascending 1-based square numbers of the white (negative) cells, each
prefixed with `K` exactly when that square holds a white king; and `B`
followed by the same for the black (positive) cells.  A color with no
pieces yields an empty list after its marker, the index lists are
strictly ascending and contain exactly that color's squares, and each
emitted decimal numeral parses back to `square + 1`. -/
theorem fen_fields_spec (b : Board)
    (hvalid : ∀ v ∈ b.pos, v = figEMPTY ∨ v = figWHITE_MAN ∨ v = figBLACK_MAN
      ∨ v = figWHITE_KING ∨ v = figBLACK_KING) :
    fenFields b = [['W'], [colorRepr b.turn],
        'W' :: joinComma ((whereNeg b.pos).map (fun sq =>
          (if b.pos.getD sq 0 = figWHITE_KING then ['K'] else []) ++ natDigits (sq + 1))),
        'B' :: joinComma ((wherePos b.pos).map (fun sq =>
          (if b.pos.getD sq 0 = figBLACK_KING then ['K'] else []) ++ natDigits (sq + 1)))]
    ∧ List.Pairwise (· < ·) (whereNeg b.pos)
    ∧ (∀ i, i ∈ whereNeg b.pos ↔ i < b.pos.length ∧ b.pos.getD i 0 < 0)
    ∧ List.Pairwise (· < ·) (wherePos b.pos)
    ∧ (∀ i, i ∈ wherePos b.pos ↔ i < b.pos.length ∧ 0 < b.pos.getD i 0)
    ∧ (∀ i : Nat, parseNat (natDigits (i + 1)) = i + 1) := by
  have hwj := (fen_list_chars b).1
  have hbj := (fen_list_chars b).2
  refine ⟨?_, whereNeg_sorted b.pos, mem_whereNeg b.pos, wherePos_sorted b.pos,
    mem_wherePos b.pos, fun i => parseNat_natDigits (i + 1)⟩
  have hitemW : (whereNeg b.pos).map (fenItemNeg b.pos)
      = (whereNeg b.pos).map (fun sq =>
          (if b.pos.getD sq 0 = figWHITE_KING then ['K'] else []) ++ natDigits (sq + 1)) := by
    refine List.map_congr_left ?_
    intro sq hsq
    obtain ⟨hlt, hneg⟩ := (mem_whereNeg b.pos sq).mp hsq
    unfold fenItemNeg
    rcases hvalid _ (getD_mem_of_lt b.pos sq hlt) with h | h | h | h | h <;> rw [h] <;>
      first
      | (exact absurd hneg (by rw [h]; decide))
      | rfl
  have hitemB : (wherePos b.pos).map (fenItemPos b.pos)
      = (wherePos b.pos).map (fun sq =>
          (if b.pos.getD sq 0 = figBLACK_KING then ['K'] else []) ++ natDigits (sq + 1)) := by
    refine List.map_congr_left ?_
    intro sq hsq
    obtain ⟨hlt, hpos⟩ := (mem_wherePos b.pos sq).mp hsq
    unfold fenItemPos
    rcases hvalid _ (getD_mem_of_lt b.pos sq hlt) with h | h | h | h | h <;> rw [h] <;>
      first
      | (exact absurd hpos (by rw [h]; decide))
      | rfl
  unfold fenFields fenInner
  rw [fen_form]
  rw [show List.drop 6 ('[' :: 'F' :: 'E' :: 'N' :: ' ' :: '"' :: 'W' :: ':'
      :: colorRepr b.turn :: ':' :: 'W'
      :: (joinComma ((whereNeg b.pos).map (fenItemNeg b.pos))
          ++ ':' :: 'B' :: (joinComma ((wherePos b.pos).map (fenItemPos b.pos))
          ++ ['"', ']'])))
      = 'W' :: ':' :: colorRepr b.turn :: ':' :: 'W'
        :: (joinComma ((whereNeg b.pos).map (fenItemNeg b.pos))
            ++ ':' :: 'B' :: (joinComma ((wherePos b.pos).map (fenItemPos b.pos))
            ++ ['"', ']'])) from rfl]
  rw [show ('W' :: ':' :: colorRepr b.turn :: ':' :: 'W'
      :: (joinComma ((whereNeg b.pos).map (fenItemNeg b.pos))
          ++ ':' :: 'B' :: (joinComma ((wherePos b.pos).map (fenItemPos b.pos))
          ++ ['"', ']'])))
      = (('W' :: ':' :: colorRepr b.turn :: ':' :: 'W'
        :: (joinComma ((whereNeg b.pos).map (fenItemNeg b.pos))
            ++ ':' :: 'B' :: joinComma ((wherePos b.pos).map (fenItemPos b.pos)))
        ++ ['"']) ++ [']']) from by simp]
  rw [List.dropLast_concat, List.dropLast_concat]
  rw [show ('W' :: ':' :: colorRepr b.turn :: ':' :: 'W'
      :: (joinComma ((whereNeg b.pos).map (fenItemNeg b.pos))
          ++ ':' :: 'B' :: joinComma ((wherePos b.pos).map (fenItemPos b.pos))))
      = ['W'] ++ ':' :: (colorRepr b.turn :: ':' :: 'W'
        :: (joinComma ((whereNeg b.pos).map (fenItemNeg b.pos))
            ++ ':' :: 'B' :: joinComma ((wherePos b.pos).map (fenItemPos b.pos)))) from rfl]
  rw [splitOnChar_append_sep ':' ['W'] _ (by decide)]
  rw [show (colorRepr b.turn :: ':' :: 'W'
      :: (joinComma ((whereNeg b.pos).map (fenItemNeg b.pos))
          ++ ':' :: 'B' :: joinComma ((wherePos b.pos).map (fenItemPos b.pos))))
      = [colorRepr b.turn] ++ ':' :: ('W'
        :: (joinComma ((whereNeg b.pos).map (fenItemNeg b.pos))
            ++ ':' :: 'B' :: joinComma ((wherePos b.pos).map (fenItemPos b.pos)))) from rfl]
  rw [splitOnChar_append_sep ':' [colorRepr b.turn] _ (by
    intro c hc
    rcases List.mem_singleton.mp hc with rfl
    cases b.turn <;> decide)]
  rw [show ('W' :: (joinComma ((whereNeg b.pos).map (fenItemNeg b.pos))
      ++ ':' :: 'B' :: joinComma ((wherePos b.pos).map (fenItemPos b.pos))))
      = ('W' :: joinComma ((whereNeg b.pos).map (fenItemNeg b.pos)))
        ++ ':' :: ('B' :: joinComma ((wherePos b.pos).map (fenItemPos b.pos))) from rfl]
  rw [splitOnChar_append_sep ':' _ _ (by
    intro c hc
    rcases List.mem_cons.mp hc with rfl | hc2
    · exact (by decide)
    · exact (fenListChar_facts c (hwj c hc2)).2.2.2.2.2.1)]
  rw [splitOnChar_no_sep ':' _ (by
    intro c hc
    rcases List.mem_cons.mp hc with rfl | hc2
    · exact (by decide)
    · exact (fenListChar_facts c (hbj c hc2)).2.2.2.2.2.1)]
  rw [hitemW, hitemB]

theorem fen_fields_spec_witness :
    fenFields ⟨[-1, 3, 0, -3], Color.Black, [], 2⟩
      = [['W'], ['B'], ['W', '1', ',', 'K', '4'], ['B', 'K', '2']] := by
  rw [(fen_fields_spec ⟨[-1, 3, 0, -3], Color.Black, [], 2⟩ (by decide)).1]
  decide
